import Mathlib

/-!
Verification development for the RSA implementation in
`src/RSA_implementation.js` (classes `Hash`, `MillerRabin`, `BlumBlumShub`,
`RSA`, `GenerateCryptoRandomNumber`).

Modelling conventions for the shallow embedding:

* JavaScript `BigInt` values are modelled as `Nat` (all values reaching the
  modelled code paths are non-negative); the few signed intermediate values
  (the CRT recombination `(mp - mq) * qinv % p` and the extended-Euclid
  coefficients) are modelled as `Int`, with JavaScript's truncated `%`
  rendered as `Int.tmod`.
* Node `Buffer`s and byte strings are modelled as `List Nat` whose elements
  are below 256; JavaScript strings are modelled as the `List Nat` of their
  UTF-16 code unit values (`charCodeAt`), which is what `Hash.sha256`
  consumes.
* Loops are modelled as fuel-driven structural recursions; in every case the
  fuel is provably larger than the number of iterations the JavaScript loop
  performs, so the embedding computes exactly the loop's result.
* Functions that `throw` are modelled with `Option` (`none` = an exception
  escapes), and `try/catch` as a `match` on that `Option`.
-/

namespace RSAImpl

/-- Fuel-driven body of `RSA.modPow` (`src/RSA_implementation.js:1674`):
each iteration multiplies `result` by `base` when the exponent is odd,
squares `base`, and halves the exponent, all modulo `m`.  The fuel only
bounds the iteration count; the loop exits by itself when `e = 0`. -/
def modPowAux (m : Nat) : Nat → Nat → Nat → Nat → Nat
  | 0, _, _, result => result
  | fuel + 1, b, e, result =>
    if e = 0 then result
    else modPowAux m fuel (b * b % m) (e / 2)
      (if e % 2 = 1 then result * b % m else result)

/-- Shallow embedding of `RSA.modPow(base, exp, mod)`
(`src/RSA_implementation.js:1674-1684`).  `exp + 1` units of fuel suffice
because the exponent is halved on every iteration. -/
def modPow (base exp m : Nat) : Nat :=
  modPowAux m (exp + 1) (base % m) exp 1

/-- Fuel-driven body of `RSA.gcd` (`src/RSA_implementation.js:1692-1697`):
`while (b !== 0n) [a, b] = [b, a % b]; return a`. -/
def gcdAux : Nat → Nat → Nat → Nat
  | 0, a, _ => a
  | fuel + 1, a, b => if b = 0 then a else gcdAux fuel b (a % b)

/-- Shallow embedding of `RSA.gcd(a, b)`.  `b + 1` units of fuel suffice
because the second component strictly decreases. -/
def gcd (a b : Nat) : Nat := gcdAux (b + 1) a b

/-- Fuel-driven body of the extended-Euclid loop of `RSA.modInverse`
(`src/RSA_implementation.js:1706-1726`): `while (a > 1)` update
`q = a / m; (a, m) = (m, a % m); (x0, x1) = (x1 - q*x0, x0)`.
`a` and `m` stay non-negative (`Nat`); the Bezout coefficients may go
negative (`Int`).  The JavaScript code divides by zero (throwing) when
`m` reaches `0` with `a > 1`, which happens exactly when the inputs are
not coprime; on the coprime inputs used by the key generator that state
is unreachable and the embedding agrees with the source. -/
def modInverseAux : Nat → Nat → Nat → Int → Int → Int
  | 0, _, _, _, x1 => x1
  | fuel + 1, a, m, x0, x1 =>
    if 1 < a then
      modInverseAux fuel m (a % m) (x1 - (a / m : Nat) * x0) x0
    else x1

/-- Shallow embedding of `RSA.modInverse(a, m)`
(`src/RSA_implementation.js:1706-1726`).  Returns the representative in
`[0, m)` of the inverse of `a` modulo `m` when `a` and `m` are coprime. -/
def modInverse (a m : Nat) : Int :=
  if m = 1 then 0
  else
    let x1 := modInverseAux (m + 2) a m 0 1
    if x1 < 0 then x1 + m else x1

/-- State of the `BlumBlumShub` generator
(`src/RSA_implementation.js:584-630`): the modulus `m = p * q` and the
current quadratic-residue state. -/
structure BBS where
  m : Nat
  state : Nat
deriving DecidableEq

/-- Shallow embedding of the `BlumBlumShub` constructor
(`src/RSA_implementation.js:594-602`): state starts at `seed % m`,
bumped to `1` when that is `0`. -/
def BBS.init (seed p q : Nat) : BBS :=
  let m := p * q
  let s := seed % m
  ⟨m, if s = 0 then 1 else s⟩

/-- Shallow embedding of `BlumBlumShub.nextBit`
(`src/RSA_implementation.js:609-612`): advance `state to state^2 mod m`
and return its low bit together with the new state. -/
def nextBit (b : BBS) : Nat × BBS :=
  let s := b.state * b.state % b.m
  (s % 2, ⟨b.m, s⟩)

/-- The bit-accumulation loop of `BlumBlumShub.nextBits`
(`src/RSA_implementation.js:622-625`): `result = (result << 1) | bit`,
`n` times.  Since the accumulator is shifted left before the OR, the OR
equals addition. -/
def drawBits : Nat → BBS → Nat → Nat × BBS
  | 0, b, acc => (acc, b)
  | n + 1, b, acc =>
    let r := nextBit b
    drawBits n r.2 (acc * 2 + r.1)

/-- Shallow embedding of `BlumBlumShub.nextBits(n)`
(`src/RSA_implementation.js:621-630`): draw `n` bits MSB-first, force the
top bit (`result |= 1 << (n-1)`) and the low bit (`result |= 1`), then
adjust to `3 mod 4` by `result = result - result % 4 + 3`.  For `n = 0`
the JavaScript shift `1n << -1n` yields `0`, whereas `2 ^ (0 - 1) = 1`
here; every use in the source has `n ≥ 1`, where the two agree. -/
def nextBits (n : Nat) (b : BBS) : Nat × BBS :=
  let r := drawBits n b 0
  let r1 := r.1 ||| 2 ^ (n - 1)
  let r2 := r1 ||| 1
  (r2 - r2 % 4 + 3, r.2)

/-- The factor-out-2 loop shared by the Miller-Rabin testers
(`src/RSA_implementation.js:1635-1640`): returns `(r, d)` with
`n - 1 = 2 ^ r * d` and `d` odd. -/
def oddPart : Nat → Nat → Nat × Nat
  | 0, d => (0, d)
  | fuel + 1, d =>
    if d % 2 = 0 then
      let r := oddPart fuel (d / 2)
      (r.1 + 1, r.2)
    else (0, d)

/-- The witness-squaring loop of `RSA.isPrimeMillerRabin`
(`src/RSA_implementation.js:1652-1658`): square `x` up to `r - 1` times
looking for `n - 1`; `true` means the witness passed. -/
def mrSquares (nn : Nat) : Nat → Nat → Bool
  | 0, _ => false
  | j + 1, x =>
    let x2 := modPow x 2 nn
    if x2 = nn - 1 then true else mrSquares nn j x2

/-- The fixed witness list of the Miller-Rabin testers
(`src/RSA_implementation.js:1642`). -/
def mrBases : List Nat := [2, 3, 5, 7, 11, 13, 17, 19, 23]

/-- One round of `RSA.isPrimeMillerRabin` with witness `a`
(`src/RSA_implementation.js:1643-1663`): witnesses `a ≥ n - 2` are
skipped (count as passing). -/
def mrRound (nn d r a : Nat) : Bool :=
  if nn - 2 ≤ a then true
  else
    let x := modPow a d nn
    if x = 1 ∨ x = nn - 1 then true
    else mrSquares nn (r - 1) x

/-- Shallow embedding of `RSA.isPrimeMillerRabin(n, k)`
(`src/RSA_implementation.js:1629-1665`); the same code appears verbatim
as `MillerRabin.isPrime` and `BlumBlumShub.isPrimeMillerRabin`. -/
def isPrimeMillerRabin (nn k : Nat) : Bool :=
  if nn = 2 ∨ nn = 3 then true
  else if nn < 2 ∨ nn % 2 = 0 then false
  else
    let rd := oddPart nn (nn - 1)
    (List.range k).all fun i => mrRound nn rd.2 rd.1 (mrBases.getD (i % mrBases.length) 0)

/-- Shallow embedding of `RSA.findPrimeRSA(format2pAdd1, maxTries)`
(`src/RSA_implementation.js:803-820`), with the instance state
`this.prng` and `this.bits` passed explicitly.  Each try draws a shaped
candidate `c` from the BBS stream; with `format2pAdd1 = true` it returns
`2c + 1` as soon as `2c + 1` passes Miller-Rabin (the candidate `c`
itself is never tested), otherwise it returns `c` when `c` passes. -/
def findPrimeRSA (prng : BBS) (bits : Nat) (format2pAdd1 : Bool) : Nat → Option Nat
  | 0 => none
  | tries + 1 =>
    let c := nextBits bits prng
    if format2pAdd1 then
      if isPrimeMillerRabin (2 * c.1 + 1) 16 then some (2 * c.1 + 1)
      else findPrimeRSA c.2 bits format2pAdd1 tries
    else
      if isPrimeMillerRabin c.1 16 then some c.1
      else findPrimeRSA c.2 bits format2pAdd1 tries

/-- Initial hash state of `Hash.sha256` (`src/RSA_implementation.js:446-454`).
The source computes these at run time as the first 32 fractional bits of
the square roots of the first 8 primes (sieved up to 313) via
`(Math.pow(candidate, .5) * 2^32) | 0`; these are exactly the FIPS 180-4
constants, which the spec's SHA-256 test vectors pin down. -/
def sha256h : List Nat :=
  [1779033703, 3144134277, 1013904242, 2773480762,
   1359893119, 2600822924, 528734635, 1541459225]

/-- Round constants of `Hash.sha256` (`src/RSA_implementation.js:446-454`):
first 32 fractional bits of the cube roots of the first 64 primes, the
FIPS 180-4 table. -/
def sha256k : List Nat :=
  [1116352408, 1899447441, 3049323471, 3921009573,
   961987163, 1508970993, 2453635748, 2870763221,
   3624381080, 310598401, 607225278, 1426881987,
   1925078388, 2162078206, 2614888103, 3248222580,
   3835390401, 4022224774, 264347078, 604807628,
   770255983, 1249150122, 1555081692, 1996064986,
   2554220882, 2821834349, 2952996808, 3210313671,
   3336571891, 3584528711, 113926993, 338241895,
   666307205, 773529912, 1294757372, 1396182291,
   1695183700, 1986661051, 2177026350, 2456956037,
   2730485921, 2820302411, 3259730800, 3345764771,
   3516065817, 3600352804, 4094571909, 275423344,
   430227734, 506948616, 659060556, 883997877,
   958139571, 1322822218, 1537002063, 1747873779,
   1955562222, 2024104815, 2227730452, 2361852424,
   2428436474, 2756734187, 3204031479, 3329325298]

/-- The `rightRotate` helper of `Hash.sha256`
(`src/RSA_implementation.js:418-420`), on the unsigned 32-bit view:
`(value >>> amount) | (value << (32 - amount))` with the left shift
wrapping modulo `2^32`. -/
def rotr32 (x n : Nat) : Nat := x / 2 ^ n ||| x % 2 ^ n * 2 ^ (32 - n)

/-- Message padding of `Hash.sha256` (`src/RSA_implementation.js:456-458`):
append `0x80`, then zero bytes until the length is `56 mod 64`. -/
def sha256Pad (ascii : List Nat) : List Nat :=
  ascii ++ 0x80 :: List.replicate ((120 - (ascii.length + 1) % 64) % 64) 0

/-- The byte-to-word packing loop of `Hash.sha256`
(`src/RSA_implementation.js:459-464`): `words[i>>2] |= j << ((3-i)%4)*8`.
For byte values below 256 the ORs of the four disjoint shifted bytes
equal the big-endian base-256 sum. -/
def toWords : List Nat → List Nat
  | b0 :: b1 :: b2 :: b3 :: rest =>
    (((b0 * 256 + b1) * 256 + b2) * 256 + b3) :: toWords rest
  | _ => []

/-- The padded word stream of `Hash.sha256` with the 64-bit bit-length
appended (`src/RSA_implementation.js:465-466`).  The source stores the
low word as the raw JavaScript number `asciiBitLength`; it only ever
enters `|0`-truncated sums, so reducing it modulo `2^32` here is
congruence-preserving and exact. -/
def sha256Words (ascii : List Nat) : List Nat :=
  let bitLength := ascii.length * 8
  toWords (sha256Pad ascii) ++ [bitLength / 2 ^ 32 % 2 ^ 32, bitLength % 2 ^ 32]

/-- The small sigma-0 message-schedule function of `Hash.sha256`
(`src/RSA_implementation.js:493`). -/
def sw0 (x : Nat) : Nat := rotr32 x 7 ^^^ rotr32 x 18 ^^^ x / 2 ^ 3

/-- The small sigma-1 message-schedule function of `Hash.sha256`
(`src/RSA_implementation.js:495`). -/
def sw1 (x : Nat) : Nat := rotr32 x 17 ^^^ rotr32 x 19 ^^^ x / 2 ^ 10

/-- One message-schedule extension step of `Hash.sha256`
(`src/RSA_implementation.js:491-496`), on the reversed schedule list
(most recent word first): appends
`(w[i-16] + s0(w[i-15]) + w[i-7] + s1(w[i-2])) | 0`. -/
def extendStep (rev : List Nat) : List Nat :=
  (rev.getD 15 0 + sw0 (rev.getD 14 0) + rev.getD 6 0 + sw1 (rev.getD 1 0)) % 2 ^ 32 :: rev

/-- The 64-word message schedule of a 16-word chunk
(`src/RSA_implementation.js:491-496`): 48 extension steps. -/
def schedule (chunk : List Nat) : List Nat := (extendStep^[48] chunk.reverse).reverse

/-- The big sigma-1 round function of `Hash.sha256`
(`src/RSA_implementation.js:487`). -/
def bigS1 (e : Nat) : Nat := rotr32 e 6 ^^^ rotr32 e 11 ^^^ rotr32 e 25

/-- The big sigma-0 round function of `Hash.sha256`
(`src/RSA_implementation.js:498`). -/
def bigS0 (a : Nat) : Nat := rotr32 a 2 ^^^ rotr32 a 13 ^^^ rotr32 a 22

/-- The choice function of `Hash.sha256` (`src/RSA_implementation.js:488`);
the JavaScript `~e` on an int32 is XOR with all-ones on the unsigned
view. -/
def ch32 (e f g : Nat) : Nat := (e &&& f) ^^^ ((e ^^^ 4294967295) &&& g)

/-- The majority function of `Hash.sha256` (`src/RSA_implementation.js:499`). -/
def maj32 (a b c : Nat) : Nat := (a &&& b) ^^^ (a &&& c) ^^^ (b &&& c)

/-- One compression round of `Hash.sha256`
(`src/RSA_implementation.js:484-502`): the working state
`[a,b,c,d,e,f,g,h]` becomes `[t1+t2, a, b, c, d+t1, e, f, g]`
(the source prepends `t1+t2` and then overwrites index 4). -/
def round256 (st : List Nat) (kw : Nat × Nat) : List Nat :=
  match st with
  | [a, b, c, d, e, f, g, h] =>
    let t1 := (h + bigS1 e + ch32 e f g + kw.1 + kw.2) % 2 ^ 32
    let t2 := (bigS0 a + maj32 a b c) % 2 ^ 32
    [(t1 + t2) % 2 ^ 32, a, b, c, (d + t1) % 2 ^ 32, e, f, g]
  | other => other

/-- Processing of one 16-word chunk of `Hash.sha256`
(`src/RSA_implementation.js:469-508`): 64 rounds, then add the previous
hash state word-wise modulo `2^32`. -/
def processChunk (hs chunk : List Nat) : List Nat :=
  let st := (sha256k.zip (schedule chunk)).foldl round256 hs
  (hs.zip st).map fun p => (p.1 + p.2) % 2 ^ 32

/-- Splitting the word stream into 16-word chunks
(`src/RSA_implementation.js:469-470`). -/
def chunks16 : Nat → List Nat → List (List Nat)
  | 0, _ => []
  | fuel + 1, ws => if ws.isEmpty then [] else ws.take 16 :: chunks16 fuel (ws.drop 16)

/-- Big-endian byte extraction of a hash word
(`src/RSA_implementation.js:510-515`): `(hash[i] >> (j*8)) & 255` for
`j = 3, 2, 1, 0`; masking with 255 makes the signed shift agree with the
unsigned one. -/
def wordBytesBE (w : Nat) : List Nat :=
  [w / 2 ^ 24 % 256, w / 2 ^ 16 % 256, w / 2 ^ 8 % 256, w % 256]

/-- A nibble to its lowercase hex character code, as produced by
`b.toString(16)` (`src/RSA_implementation.js:513`). -/
def toHexDigit (d : Nat) : Nat := if d < 10 then 48 + d else 87 + d

/-- A byte to its two hex character codes, as produced by
`((b < 16) ? 0 : '') + b.toString(16)` (`src/RSA_implementation.js:513`)
and by `Buffer.toString("hex")`. -/
def byteToHex (b : Nat) : List Nat := [toHexDigit (b / 16), toHexDigit (b % 16)]

/-- The 32 digest bytes computed by `Hash.sha256`
(`src/RSA_implementation.js:469-515`) on an input whose character codes
all fit in a byte. -/
def sha256DigestBytes (ascii : List Nat) : List Nat :=
  let ws := sha256Words ascii
  let final := (chunks16 (ws.length + 1) ws).foldl processChunk sha256h
  (final.map wordBytesBE).flatten

/-- Shallow embedding of `Hash.sha256(ascii)`
(`src/RSA_implementation.js:417-517`): `none` models the bare `return`
(yielding `undefined`) taken when some character code exceeds 255
(`if (j >> 8) return`, `src/RSA_implementation.js:461-462`); otherwise the
64-character lowercase hex digest.  The source checks the codes of the
padded string, whose padding characters are always below 256. -/
def sha256 (ascii : List Nat) : Option (List Nat) :=
  if (sha256Pad ascii).all (· ≤ 255) then
    some ((sha256DigestBytes ascii).map byteToHex).flatten
  else none

/-- Value of one hex character code, as read by `Buffer.from(str, "hex")`.
Always below 16. -/
def hexVal (c : Nat) : Nat :=
  if 48 ≤ c ∧ c ≤ 57 then c - 48
  else if 97 ≤ c ∧ c ≤ 102 then c - 87
  else if 65 ≤ c ∧ c ≤ 70 then c - 55
  else 0

/-- Hex character codes to bytes, two characters per byte, as performed
by `Buffer.from(hexString, "hex")` on well-formed hex strings. -/
def hexToBytes : List Nat → List Nat
  | c1 :: c2 :: rest => (hexVal c1 * 16 + hexVal c2) :: hexToBytes rest
  | _ => []

/-- Bytes to their lowercase hex character codes, as performed by
`Buffer.toString("hex")`. -/
def bytesToHex (l : List Nat) : List Nat := (l.map byteToHex).flatten

/-- Shallow embedding of `RSA.I2OSP(value, length)`
(`src/RSA_implementation.js:1283-1290`): fixed-length big-endian bytes. -/
def I2OSP (value L : Nat) : List Nat :=
  (List.range L).map fun i => value / 256 ^ (L - 1 - i) % 256

/-- Shallow embedding of `RSA.MGF1(seed, maskLen)`
(`src/RSA_implementation.js:1299-1314`): concatenate
`SHA-256(hex(seed ++ I2OSP(i, 4)))` for `i < ceil(maskLen/32)` and
truncate to `maskLen` bytes.  The source hashes the hex string rendering
of the buffer; hex characters are always below 256, so `sha256` never
returns `none` here and the `getD` default is dead. -/
def MGF1 (seed : List Nat) (maskLen : Nat) : List Nat :=
  let count := (maskLen + 31) / 32
  (((List.range count).map fun i =>
      hexToBytes ((sha256 (bytesToHex (seed ++ I2OSP i 4))).getD [])).flatten).take maskLen

/-- Big-endian value of a byte string, as computed by
`BigInt("0x" + buf.toString("hex"))` for bytes below 256. -/
def osToInt (l : List Nat) : Nat := l.foldl (fun acc b => acc * 256 + b) 0

/-- Fuel-driven minimal big-endian byte rendering of a positive integer. -/
def natBytesAux : Nat → Nat → List Nat
  | 0, _ => []
  | fuel + 1, n => if n = 0 then [] else natBytesAux fuel (n / 256) ++ [n % 256]

/-- Byte rendering used throughout the source for `BigInt` values:
`let hex = m.toString(16); if (hex.length % 2) hex = "0" + hex;
Buffer.from(hex, "hex")`.  This is the minimal big-endian byte string of
`m`, except that `0` renders as the single byte `0x00`. -/
def natToBytes (n : Nat) : List Nat :=
  if n = 0 then [0] else natBytesAux (n + 1) n

/-- Left zero-padding of a byte string to `k` bytes, as performed by
`Buffer.alloc(k)` plus `copy` at offset `k - len` in the source
(`src/RSA_implementation.js:1144-1147` and similar).  When the string is
at least `k` bytes long it is returned unchanged, matching the source's
`if (EM.length < k)` guard. -/
def padLeft (k : Nat) (l : List Nat) : List Nat :=
  List.replicate (k - l.length) 0 ++ l

/-- Pointwise XOR of two byte strings, as in the masking loops of the
OAEP and PSS engines. -/
def xorBytes (a b : List Nat) : List Nat := a.zipWith (· ^^^ ·) b

/-- UTF-8 encoding of one Unicode scalar value, as performed by
`Buffer.from(string)` on well-formed strings. -/
def utf8EncodeChar (c : Nat) : List Nat :=
  if c < 0x80 then [c]
  else if c < 0x800 then [0xC0 + c / 64, 0x80 + c % 64]
  else if c < 0x10000 then
    [0xE0 + c / 4096, 0x80 + c / 64 % 64, 0x80 + c % 64]
  else
    [0xF0 + c / 262144, 0x80 + c / 4096 % 64, 0x80 + c / 64 % 64, 0x80 + c % 64]

/-- UTF-8 encoding of a list of Unicode scalar values (`Buffer.from` on a
well-formed JavaScript string). -/
def utf8Encode (s : List Nat) : List Nat := (s.map utf8EncodeChar).flatten

/-- Fuel-driven UTF-8 decoder: `none` on malformed input.  Node's
`buffer.toString("utf8")` instead substitutes U+FFFD on malformed bytes;
the two agree on well-formed UTF-8, which is the only case exercised by
the round-trip theorems below. -/
def utf8DecodeAux : Nat → List Nat → Option (List Nat)
  | 0, l => if l.isEmpty then some [] else none
  | _ + 1, [] => some []
  | fuel + 1, b :: rest =>
    if b < 0x80 then (utf8DecodeAux fuel rest).map (b :: ·)
    else if b < 0xC0 then none
    else if b < 0xE0 then
      match rest with
      | b1 :: rest1 =>
        if 0x80 ≤ b1 ∧ b1 < 0xC0 then
          let c := (b - 0xC0) * 64 + (b1 - 0x80)
          if 0x80 ≤ c then (utf8DecodeAux fuel rest1).map (c :: ·) else none
        else none
      | [] => none
    else if b < 0xF0 then
      match rest with
      | b1 :: b2 :: rest2 =>
        if (0x80 ≤ b1 ∧ b1 < 0xC0) ∧ (0x80 ≤ b2 ∧ b2 < 0xC0) then
          let c := ((b - 0xE0) * 64 + (b1 - 0x80)) * 64 + (b2 - 0x80)
          if 0x800 ≤ c ∧ ¬(0xD800 ≤ c ∧ c < 0xE000) then
            (utf8DecodeAux fuel rest2).map (c :: ·)
          else none
        else none
      | _ => none
    else if b < 0xF8 then
      match rest with
      | b1 :: b2 :: b3 :: rest3 =>
        if (0x80 ≤ b1 ∧ b1 < 0xC0) ∧ (0x80 ≤ b2 ∧ b2 < 0xC0) ∧
            (0x80 ≤ b3 ∧ b3 < 0xC0) then
          let c := (((b - 0xF0) * 64 + (b1 - 0x80)) * 64 + (b2 - 0x80)) * 64 + (b3 - 0x80)
          if 0x10000 ≤ c ∧ c < 0x110000 then
            (utf8DecodeAux fuel rest3).map (c :: ·)
          else none
        else none
      | _ => none
    else none

/-- UTF-8 decoding to Unicode scalar values (partial model of
`buffer.toString("utf8")`, see `utf8DecodeAux`). -/
def utf8Decode (l : List Nat) : Option (List Nat) :=
  utf8DecodeAux (l.length + 1) l

/-- A Unicode scalar value: a code point that is not a surrogate.  These
are exactly the characters of well-formed JavaScript strings, on which
`Buffer.from` and `buffer.toString("utf8")` are mutually inverse. -/
def ScalarValue (c : Nat) : Prop :=
  c < 0xD800 ∨ (0xE000 ≤ c ∧ c < 0x110000)

/-- The public-key record `{n, e}` built by `RSA.generateKeys`
(`src/RSA_implementation.js:931-934`). -/
structure PublicKey where
  n : Nat
  e : Nat
deriving DecidableEq

/-- The private-key record `{p, q, e, d, n, phi, dp, dq, qinv}` built by
`RSA.generateKeys` (`src/RSA_implementation.js:936-946`). -/
structure PrivateKey where
  p : Nat
  q : Nat
  e : Nat
  d : Nat
  n : Nat
  phi : Nat
  dp : Nat
  dq : Nat
  qinv : Nat
deriving DecidableEq

/-- The public key corresponding to a private-key record. -/
def publicOf (key : PrivateKey) : PublicKey := ⟨key.n, key.e⟩

/-- Fuel-driven binary length: the number of base-2 digits of `n`
(`0` for `n = 0`). -/
def bitLenAux : Nat → Nat → Nat
  | 0, _ => 0
  | fuel + 1, n => if n = 0 then 0 else bitLenAux fuel (n / 2) + 1

/-- The bit length `n.toString(2).length` used throughout the source
(for `n = 0` the string is `"0"`, of length 1). -/
def bitLenJS (n : Nat) : Nat := if n = 0 then 1 else bitLenAux (n + 1) n

/-- The byte length `k = Math.ceil(bitLen(n) / 8)` of the modulus
(`src/RSA_implementation.js:1116` and similar). -/
def byteLenOfModulus (n : Nat) : Nat := (bitLenJS n + 7) / 8

/-- Shallow embedding of `RSA.OAEPEncode(message, label, k)`
(`src/RSA_implementation.js:1343-1372`).  `message` is the byte string
(`Buffer.from(message)` is the identity on buffers); `seed` stands for
the `hLen` random bytes drawn from the freshly created BBS stream
(`getSeedFromBBS`), made explicit here.  `none` models the
`"Message trop long pour OAEP"` exception (`psLen < 0`) and the
exception that `Buffer.from(undefined, "hex")` would raise if the label
had a character code above 255. -/
def OAEPEncode (message label : List Nat) (k : Nat) (seed : List Nat) :
    Option (List Nat) :=
  if k < message.length + 2 * 32 + 2 then none
  else
    match sha256 label with
    | none => none
    | some lHashHex =>
      let lHash := hexToBytes lHashHex
      let PS := List.replicate (k - message.length - 2 * 32 - 2) 0
      let DB := lHash ++ PS ++ 1 :: message
      let dbMask := MGF1 seed (k - 32 - 1)
      let maskedDB := xorBytes DB dbMask
      let seedMask := MGF1 maskedDB 32
      let maskedSeed := xorBytes seed seedMask
      some (0 :: maskedSeed ++ maskedDB)

/-- The separator scan of `RSA.OAEPDecode`
(`src/RSA_implementation.js:1404-1410`): skip `0x00` bytes, require
`0x01`, return the remainder; `none` models the
`"séparateur 0x01 manquant"` exception (also raised via the
`undefined !== 0x01` comparison when the scan runs off the end). -/
def stripPS : List Nat → Option (List Nat)
  | [] => none
  | 0 :: rest => stripPS rest
  | 1 :: rest => some rest
  | _ => none

/-- Shallow embedding of `RSA.OAEPDecode(encoded, label)`
(`src/RSA_implementation.js:1381-1411`) up to the final
`toString("utf8")`, which the callers below apply via `utf8Decode`.
`none` models the `OAEP` exceptions (leading byte, `lHash` mismatch,
missing separator). -/
def OAEPDecode (encoded label : List Nat) : Option (List Nat) :=
  match encoded with
  | [] => none
  | y :: rest =>
    if y ≠ 0 then none
    else
      let maskedSeed := rest.take 32
      let maskedDB := rest.drop 32
      let seedMask := MGF1 maskedDB 32
      let seed := xorBytes maskedSeed seedMask
      let dbMask := MGF1 seed maskedDB.length
      let DB := xorBytes maskedDB dbMask
      match sha256 label with
      | none => none
      | some lHashHex =>
        if DB.take 32 ≠ hexToBytes lHashHex then none
        else stripPS (DB.drop 32)

/-- Shallow embedding of `RSA.encryptOAEP(message, publicKey)`
(`src/RSA_implementation.js:1108-1123`).  The key is passed as a record
(the base64/JSON codec layer, an external collaborator in the spec, is
modelled separately), the message as a list of Unicode scalar values
(`Buffer.from(message)` becomes `utf8Encode`), and the OAEP seed bytes
are explicit.  `none` models the exceptions. -/
def encryptOAEP (message : List Nat) (pub : PublicKey) (seed : List Nat) :
    Option Nat :=
  let k := byteLenOfModulus pub.n
  match OAEPEncode (utf8Encode message) [] k seed with
  | none => none
  | some EM =>
    let m := osToInt EM
    if pub.n ≤ m then none else some (modPow m pub.e pub.n)

/-- Shallow embedding of `RSA.decryptOAEP(cipherBigInt, privateKey)`
(`src/RSA_implementation.js:1131-1150`): naive private exponentiation,
left-pad the bytes to `k`, OAEP-decode, UTF-8 decode. -/
def decryptOAEP (cipher : Nat) (key : PrivateKey) : Option (List Nat) :=
  let m := modPow cipher key.d key.n
  let k := byteLenOfModulus key.n
  (OAEPDecode (padLeft k (natToBytes m)) []).bind utf8Decode

/-- Shallow embedding of `RSA.decryptOAEPBlinding(cipherBigInt, privateKey)`
(`src/RSA_implementation.js:1158-1180`): the 512-bit BBS draw is passed
explicitly as `rDraw` and masked to 16 bits as in the source
(`rng.nextNumber() & 0xFFFFn`); the exponent is `d + r * phi`. -/
def decryptOAEPBlinding (cipher : Nat) (key : PrivateKey) (rDraw : Nat) :
    Option (List Nat) :=
  let r := rDraw &&& 0xFFFF
  let m := modPow cipher (key.d + r * key.phi) key.n
  let k := byteLenOfModulus key.n
  (OAEPDecode (padLeft k (natToBytes m)) []).bind utf8Decode

/-- The CRT recombination shared by the CRT decryption paths
(`src/RSA_implementation.js:1037-1040`, `1082-1086`, `1196-1199`,
`1245-1249`): `h = ((mp - mq) * qinv) % p` with JavaScript's truncated
remainder (`Int.tmod`), fixed up to be non-negative, then `mq + h * q`. -/
def crtRecombine (mp mq qinv p q : Nat) : Nat :=
  let h0 : Int := ((mp : Int) - (mq : Int)) * (qinv : Int)
  let h1 := Int.tmod h0 (p : Int)
  let h := if h1 < 0 then h1 + (p : Int) else h1
  mq + h.toNat * q

/-- Shallow embedding of `RSA.decryptOAEPCRT(cipherBigInt, privateKey)`
(`src/RSA_implementation.js:1188-1213`). -/
def decryptOAEPCRT (cipher : Nat) (key : PrivateKey) : Option (List Nat) :=
  let mp := modPow cipher key.dp key.p
  let mq := modPow cipher key.dq key.q
  let m := crtRecombine mp mq key.qinv key.p key.q
  let k := byteLenOfModulus key.n
  (OAEPDecode (padLeft k (natToBytes m)) []).bind utf8Decode

/-- Shallow embedding of
`RSA.decryptOAEPBlindingCRT(cipherBigInt, privateKey)`
(`src/RSA_implementation.js:1221-1273`): the two BBS draws are passed
explicitly (this variant does not mask them to 16 bits), zero draws are
bumped to 1, and the CRT exponents are blinded by multiples of `p - 1`
and `q - 1`. -/
def decryptOAEPBlindingCRT (cipher : Nat) (key : PrivateKey)
    (rpDraw rqDraw : Nat) : Option (List Nat) :=
  let rp := if rpDraw = 0 then 1 else rpDraw
  let rq := if rqDraw = 0 then 1 else rqDraw
  let dpB := key.dp + rp * (key.p - 1)
  let dqB := key.dq + rq * (key.q - 1)
  let mp := modPow cipher dpB key.p
  let mq := modPow cipher dqB key.q
  let m := crtRecombine mp mq key.qinv key.p key.q
  let k := byteLenOfModulus key.n
  (OAEPDecode (padLeft k (natToBytes m)) []).bind utf8Decode

/-- The blinded private-key operation of
`RSA.decryptBlinding(cipherBigInt, privateKey)`
(`src/RSA_implementation.js:1007-1022`): the integer
`c ^ (d + r * phi) mod n`, with the BBS draw passed explicitly and
masked to 16 bits as in the source.  The source then renders this
integer as UTF-8 text; the claim under study concerns the integer. -/
def decryptBlindingM (cipher : Nat) (key : PrivateKey) (rDraw : Nat) : Nat :=
  modPow cipher (key.d + (rDraw &&& 0xFFFF) * key.phi) key.n

/-- Shallow embedding of `RSA.emsaPSSencode(mHashHex, emLen, emBits)`
(`src/RSA_implementation.js:1423-1475`).  `mHashHex` is the (possibly
`undefined`, hence `Option`) hex digest from `Hash.sha256`; the 32 salt
bytes drawn from the BBS stream are explicit.  `M.toString("latin1")`
maps bytes to equal character codes, so hashing the byte list directly
is exact.  `none` models the exceptions (length too short, undefined
digest, final length check). -/
def emsaPSSencode (mHashHex : Option (List Nat)) (emLen emBits : Nat)
    (salt : List Nat) : Option (List Nat) :=
  if emLen < 32 + 32 + 2 then none
  else
    match mHashHex with
    | none => none
    | some mh =>
      let mHash := hexToBytes mh
      match sha256 (List.replicate 8 0 ++ mHash ++ salt) with
      | none => none
      | some Hhex =>
        let H := hexToBytes Hhex
        let psLen := emLen - 32 - 32 - 2
        let DB := List.replicate psLen 0 ++ 1 :: salt
        let maskedDB := xorBytes DB (MGF1 H DB.length)
        let unused := 8 * emLen - emBits
        let maskedDB2 :=
          if 0 < unused then
            match maskedDB with
            | [] => []
            | b :: bs => (b &&& 255 / 2 ^ unused) :: bs
          else maskedDB
        let EM := maskedDB2 ++ H ++ [188]
        if EM.length = emLen then some EM else none

/-- Shallow embedding of `RSA.emsaPSSverify(mHashHex, EM, emBits)`
(`src/RSA_implementation.js:1485-1540`).  Returns `some true` on
success; `none` models every thrown error (message too short, bad
trailer, undefined digest, bad DB format, missing `0x01`, salt length,
hash mismatch).  The function never returns `false` itself; its caller
`verifyPSS` catches the exceptions. -/
def emsaPSSverify (mHashHex : Option (List Nat)) (EM : List Nat)
    (emBits : Nat) : Option Bool :=
  let emLen := EM.length
  if emLen < 32 + 2 then none
  else if EM.getLast? ≠ some 188 then none
  else
    match mHashHex with
    | none => none
    | some mh =>
      let mHash := hexToBytes mh
      let maskedDB := EM.take (emLen - 32 - 1)
      let H := (EM.drop (emLen - 32 - 1)).take 32
      let DB0 := xorBytes maskedDB (MGF1 H maskedDB.length)
      let unused := 8 * emLen - emBits
      let DB :=
        if 0 < unused then
          match DB0 with
          | [] => []
          | b :: bs => (b &&& 255 / 2 ^ unused) :: bs
        else DB0
      match stripPS DB with
      | none => none
      | some salt =>
        if salt.length ≠ 32 then none
        else
          match sha256 (List.replicate 8 0 ++ mHash ++ salt) with
          | none => none
          | some Hpx =>
            if H = hexToBytes Hpx then some true else none

/-- Shallow embedding of `RSA.signPSS(message, privateKey)`
(`src/RSA_implementation.js:1549-1579`), with the key as a record, the
message as character codes, and the 32 BBS salt bytes explicit.
`none` models the exceptions (from `emsaPSSencode`, from an encoded
message longer than `emLen`, or `m ≥ n`). -/
def signPSS (message : List Nat) (key : PrivateKey) (salt : List Nat) :
    Option Nat :=
  let emBits := bitLenJS key.n - 1
  let emLen := (emBits + 7) / 8
  match emsaPSSencode (sha256 message) emLen emBits salt with
  | none => none
  | some EM =>
    if emLen < EM.length then none
    else
      let m := osToInt (padLeft emLen EM)
      if key.n ≤ m then none else some (modPow m key.d key.n)

/-- Shallow embedding of `RSA.verifyPSS(signature, publicKey, message)`
(`src/RSA_implementation.js:1589-1619`).  `none` models the one uncaught
exception, `"Encoded message length too long in verification"`, thrown
outside the `try` when the recovered integer needs more than `k` bytes;
every failure inside `emsaPSSverify` is caught and becomes
`some false`. -/
def verifyPSS (signature : Nat) (pub : PublicKey) (message : List Nat) :
    Option Bool :=
  let emBits := bitLenJS pub.n - 1
  let k := (emBits + 7) / 8
  let m := modPow signature pub.e pub.n
  let mBuf := natToBytes m
  if k < mBuf.length then none
  else
    match emsaPSSverify (sha256 message) (padLeft k mBuf) emBits with
    | some b => some b
    | none => some false

/-- A decoded JSON leaf value in the key codec: either still a string or
a revived big integer. -/
inductive JVal where
  | str : List Nat → JVal
  | big : Nat → JVal
deriving DecidableEq

/-- Decimal digit test, the `\d` of the codec regexes. -/
def isDigitCode (c : Nat) : Bool := decide (48 ≤ c) && decide (c ≤ 57)

/-- The regex `/^\d+n$/` of `RSA.decodeKeyBase64` and
`RSA.parseWithBigInt` (`src/RSA_implementation.js:1837`, `1871`): one or
more decimal digits followed by the literal character `n` (code 110). -/
def isTaggedBigInt (s : List Nat) : Bool :=
  match s.reverse with
  | 110 :: rest => !rest.isEmpty && rest.all isDigitCode
  | _ => false

/-- The regex `/^\d+$/` of `RSA.parseWithBigInt`
(`src/RSA_implementation.js:1873`). -/
def isPlainDigits (s : List Nat) : Bool := !s.isEmpty && s.all isDigitCode

/-- `BigInt(str)` on a decimal digit string. -/
def decDigitsToNat (s : List Nat) : Nat :=
  s.foldl (fun a c => a * 10 + (c - 48)) 0

/-- The JSON reviver of `RSA.decodeKeyBase64`
(`src/RSA_implementation.js:1836-1841`), applied to each string value of
the parsed key object: tagged decimal strings `"<digits>n"` become big
integers; every other string (including plain decimal strings) is
returned unchanged. -/
def decodeKeyBase64Revive (s : List Nat) : JVal :=
  if isTaggedBigInt s then .big (decDigitsToNat s.dropLast) else .str s

/-- The JSON reviver of `RSA.parseWithBigInt`
(`src/RSA_implementation.js:1869-1877`): both tagged and plain decimal
strings become big integers. -/
def parseWithBigIntRevive (s : List Nat) : JVal :=
  if isTaggedBigInt s then .big (decDigitsToNat s.dropLast)
  else if isPlainDigits s then .big (decDigitsToNat s)
  else .str s

/-- A key blob decoded field-by-field with the `decodeKeyBase64` reviver
(the blob is modelled after the base64/JSON transport, an external
collaborator in the spec, as the list of field name / string value
pairs of the flat key object). -/
def decodeKeyBase64Values (blob : List (List Nat × List Nat)) :
    List (List Nat × JVal) :=
  blob.map fun kv => (kv.1, decodeKeyBase64Revive kv.2)

/-- A key blob decoded field-by-field with the `parseWithBigInt`
reviver. -/
def parseWithBigIntValues (blob : List (List Nat × List Nat)) :
    List (List Nat × JVal) :=
  blob.map fun kv => (kv.1, parseWithBigIntRevive kv.2)

/-- The private-key record assembled by `RSA.generateKeys`
(`src/RSA_implementation.js:841-946`) once two primes `p` and `q` have
been accepted: `e = 65537`, `phi = (p-1)(q-1)`, `d = modInverse(e, phi)`,
`dp = d mod (p-1)`, `dq = d mod (q-1)`, `qinv = modInverse(q, p)`. -/
def assembleKey (p q : Nat) : PrivateKey :=
  let e := 65537
  let phi := (p - 1) * (q - 1)
  let d := (modInverse e phi).toNat
  ⟨p, q, e, d, p * q, phi, d % (p - 1), d % (q - 1), (modInverse q p).toNat⟩

/-- The invariants of a generated private key that the correctness
theorems consume: `p` and `q` are distinct odd primes (the generator
draws them from `findPrimeRSA`, whose outputs pass 16 Miller-Rabin
rounds), the derived fields are as assembled by `generateKeys`, and the
CRT helpers satisfy their defining congruences. -/
structure ValidPrivateKey (key : PrivateKey) : Prop where
  pPrime : key.p.Prime
  qPrime : key.q.Prime
  pq : key.p ≠ key.q
  pBig : 2 < key.p
  qBig : 2 < key.q
  nEq : key.n = key.p * key.q
  phiEq : key.phi = (key.p - 1) * (key.q - 1)
  ed : key.e * key.d % key.phi = 1
  dpEq : key.dp = key.d % (key.p - 1)
  dqEq : key.dq = key.d % (key.q - 1)
  qinvLt : key.qinv < key.p
  qinvEq : key.q * key.qinv % key.p = 1

/-- Concrete 530-bit prime `673 * 2^520 + 1` used to instantiate the
key-level theorems on a modulus large enough for OAEP and PSS
(the factored form of `p - 1` admits a Lucas primality certificate). -/
def pWit : Nat := 673 * 2 ^ 520 + 1

/-- Concrete witness key assembled exactly as `generateKeys` does, from
the primes `pWit` and `3`. -/
def keyWit : PrivateKey := assembleKey pWit 3

/-- Concrete small witness key from the primes `61` and `53`. -/
def keySmall : PrivateKey := assembleKey 61 53

/-! ### Correctness of the arithmetic helpers -/

theorem modPowAux_eq (m : Nat) (hm : 0 < m) :
    ∀ fuel e b r, e < fuel → b < m → r < m →
      modPowAux m fuel b e r = r * b ^ e % m := by
  intro fuel
  induction fuel with
  | zero => intro e b r h; omega
  | succ fuel ih =>
    intro e b r he hb hr
    by_cases h0 : e = 0
    · subst h0
      simp [modPowAux, Nat.mod_eq_of_lt hr]
    · have hepos : 0 < e := Nat.pos_of_ne_zero h0
      have hlt : e / 2 < fuel := lt_of_lt_of_le (Nat.div_lt_self hepos one_lt_two)
        (Nat.lt_succ_iff.mp he)
      have hb2 : b * b % m < m := Nat.mod_lt _ hm
      have step : modPowAux m (fuel + 1) b e r =
          modPowAux m fuel (b * b % m) (e / 2)
            (if e % 2 = 1 then r * b % m else r) := by
        simp [modPowAux, h0]
      rw [step]
      by_cases hodd : e % 2 = 1
      · have hr2 : r * b % m < m := Nat.mod_lt _ hm
        rw [if_pos hodd, ih (e / 2) (b * b % m) (r * b % m) hlt hb2 hr2]
        have h1 : (b * b % m) ^ (e / 2) ≡ (b * b) ^ (e / 2) [MOD m] :=
          Nat.ModEq.pow _ (Nat.mod_modEq _ _)
        have h2 : r * b % m * (b * b % m) ^ (e / 2) ≡
            r * b * (b * b) ^ (e / 2) [MOD m] :=
          Nat.ModEq.mul (Nat.mod_modEq _ _) h1
        have h3 : r * b * (b * b) ^ (e / 2) = r * b ^ e := by
          obtain ⟨k, hk⟩ : ∃ k, e / 2 = k := ⟨_, rfl⟩
          have he2 : e = 2 * k + 1 := by omega
          rw [hk, he2]; ring
        calc r * b % m * (b * b % m) ^ (e / 2) % m
            = r * b * (b * b) ^ (e / 2) % m := h2
          _ = r * b ^ e % m := by rw [h3]
      · rw [if_neg hodd, ih (e / 2) (b * b % m) r hlt hb2 hr]
        have h1 : (b * b % m) ^ (e / 2) ≡ (b * b) ^ (e / 2) [MOD m] :=
          Nat.ModEq.pow _ (Nat.mod_modEq _ _)
        have h2 : r * (b * b % m) ^ (e / 2) ≡ r * (b * b) ^ (e / 2) [MOD m] :=
          Nat.ModEq.mul_left _ h1
        have h3 : r * (b * b) ^ (e / 2) = r * b ^ e := by
          obtain ⟨k, hk⟩ : ∃ k, e / 2 = k := ⟨_, rfl⟩
          have he2 : e = 2 * k := by omega
          rw [hk, he2]; ring
        calc r * (b * b % m) ^ (e / 2) % m
            = r * (b * b) ^ (e / 2) % m := h2
          _ = r * b ^ e % m := by rw [h3]

/-- `RSA.modPow` computes modular exponentiation (for a modulus above 1;
for `m = 1` the JavaScript loop returns `1` rather than `0` when the
exponent is `0`). -/
theorem modPow_eq (b e m : Nat) (hm : 1 < m) : modPow b e m = b ^ e % m := by
  have h0 : 0 < m := lt_trans one_pos hm
  unfold modPow
  rw [modPowAux_eq m h0 (e + 1) e (b % m) 1 (Nat.lt_succ_self e)
    (Nat.mod_lt _ h0) hm, one_mul, ← Nat.pow_mod]

theorem gcdAux_eq : ∀ fuel a b, b < fuel → gcdAux fuel a b = Nat.gcd b a := by
  intro fuel
  induction fuel with
  | zero => intro a b h; omega
  | succ fuel ih =>
    intro a b hb
    by_cases h0 : b = 0
    · subst h0; simp [gcdAux]
    · have hpos : 0 < b := Nat.pos_of_ne_zero h0
      have : a % b < fuel := lt_of_lt_of_le (Nat.mod_lt _ hpos) (Nat.lt_succ_iff.mp hb)
      rw [show gcdAux (fuel + 1) a b = gcdAux fuel b (a % b) by simp [gcdAux, h0],
        ih b (a % b) this]
      exact (Nat.gcd_rec b a).symm

/-- `RSA.gcd` computes the greatest common divisor. -/
theorem gcd_eq (a b : Nat) : gcd a b = Nat.gcd a b := by
  unfold gcd
  rw [gcdAux_eq _ a b (Nat.lt_succ_self b), Nat.gcd_comm]

theorem modInverseAux_spec (a0 m0 : Nat) (hm0 : 2 ≤ m0) :
    ∀ fuel a m (x0 x1 : Int), m < fuel →
      Nat.gcd a m = 1 → 1 ≤ a →
      Int.ModEq m0 (x1 * a0) a →
      Int.ModEq m0 (x0 * a0) m →
      ((x0 ≤ 0 ∧ 0 ≤ x1) ∨ (x1 ≤ 0 ∧ 0 ≤ x0)) →
      a * x0.natAbs + m * x1.natAbs = m0 →
      (m = 0 → x1.natAbs < m0) →
      Int.ModEq m0 (modInverseAux fuel a m x0 x1 * a0) 1 ∧
        (modInverseAux fuel a m x0 x1).natAbs < m0 := by
  intro fuel
  induction fuel with
  | zero => intro a m x0 x1 h; exact absurd h (Nat.not_lt_zero m)
  | succ fuel ih =>
    intro a m x0 x1 hfuel hg ha hx1 hx0 hsign hmag hmz
    by_cases hloop : 1 < a
    · -- loop body
      have hm : 0 < m := by
        by_contra hcon
        have hmz0 : m = 0 := by omega
        rw [hmz0, Nat.gcd_zero_right] at hg
        omega
      obtain ⟨qn, hqn⟩ : ∃ t, a / m = t := ⟨_, rfl⟩
      obtain ⟨rn, hrn⟩ : ∃ t, a % m = t := ⟨_, rfl⟩
      have hstep : modInverseAux (fuel + 1) a m x0 x1 =
          modInverseAux fuel m rn (x1 - (qn : Int) * x0) x0 := by
        simp [modInverseAux, hloop, hqn, hrn]
      rw [hstep]
      have hdm : m * qn + rn = a := by rw [← hqn, ← hrn]; exact Nat.div_add_mod a m
      have hrm : rn < m := by rw [← hrn]; exact Nat.mod_lt _ hm
      have hfuel2 : rn < fuel := lt_of_lt_of_le hrm (Nat.lt_succ_iff.mp hfuel)
      have hg2 : Nat.gcd m rn = 1 := by
        rw [← hrn, Nat.gcd_comm, ← Nat.gcd_rec m a, Nat.gcd_comm]
        exact hg
      have hqm : ((rn : Nat) : Int) = (a : Int) - (qn : Int) * (m : Int) := by
        have h2 : ((m : Int)) * ((qn : Int)) + ((rn : Int)) = ((a : Int)) := by
          exact_mod_cast congrArg (fun t : Nat => (t : Int)) hdm
        linarith
      have hx0new : Int.ModEq m0 ((x1 - (qn : Int) * x0) * a0) ((rn : Nat) : Int) := by
        have h1 : Int.ModEq m0 (x1 * a0 - (qn : Int) * (x0 * a0))
            ((a : Int) - (qn : Int) * m) := Int.ModEq.sub hx1 (Int.ModEq.mul_left _ hx0)
        have h2 : (x1 - (qn : Int) * x0) * a0 = x1 * a0 - (qn : Int) * (x0 * a0) := by
          ring
        rw [h2, hqm]
        exact h1
      -- magnitude bookkeeping
      have habs : (x1 - (qn : Int) * x0).natAbs = x1.natAbs + qn * x0.natAbs := by
        rcases hsign with ⟨h0, h1⟩ | ⟨h1, h0⟩
        · have ht : ((qn : Int)) * x0 ≤ 0 :=
            mul_nonpos_iff.mpr (Or.inl ⟨by positivity, h0⟩)
          have hnn : 0 ≤ x1 - (qn : Int) * x0 := by linarith
          have e1 : ((x1 - (qn : Int) * x0).natAbs : Int) =
              ((x1.natAbs + qn * x0.natAbs : Nat) : Int) := by
            rw [Int.natAbs_of_nonneg hnn, Nat.cast_add, Nat.cast_mul,
              Int.natAbs_of_nonneg h1, Int.ofNat_natAbs_of_nonpos h0]
            ring
          exact Nat.cast_inj.mp e1
        · have ht : 0 ≤ ((qn : Int)) * x0 := by positivity
          have hnp : x1 - (qn : Int) * x0 ≤ 0 := by linarith
          have e1 : ((x1 - (qn : Int) * x0).natAbs : Int) =
              ((x1.natAbs + qn * x0.natAbs : Nat) : Int) := by
            rw [Int.ofNat_natAbs_of_nonpos hnp, Nat.cast_add, Nat.cast_mul,
              Int.ofNat_natAbs_of_nonpos h1, Int.natAbs_of_nonneg h0]
            ring
          exact Nat.cast_inj.mp e1
      have hmag2 : m * (x1 - (qn : Int) * x0).natAbs + rn * x0.natAbs = m0 := by
        rw [habs]
        calc m * (x1.natAbs + qn * x0.natAbs) + rn * x0.natAbs
            = (m * qn + rn) * x0.natAbs + m * x1.natAbs := by ring
          _ = a * x0.natAbs + m * x1.natAbs := by rw [hdm]
          _ = m0 := hmag
      have hsign2 : ((x1 - (qn : Int) * x0) ≤ 0 ∧ 0 ≤ x0) ∨
          (x0 ≤ 0 ∧ 0 ≤ (x1 - (qn : Int) * x0)) := by
        rcases hsign with ⟨h0, h1⟩ | ⟨h1, h0⟩
        · right
          refine ⟨h0, ?_⟩
          have : ((qn : Int)) * x0 ≤ 0 :=
            mul_nonpos_iff.mpr (Or.inl ⟨by positivity, h0⟩)
          linarith
        · left
          refine ⟨?_, h0⟩
          have : 0 ≤ ((qn : Int)) * x0 := by positivity
          linarith
      have hmz2 : rn = 0 → x0.natAbs < m0 := by
        intro _
        have h1 : a * x0.natAbs ≤ m0 := by omega
        have h2 : 2 * x0.natAbs ≤ a * x0.natAbs :=
          Nat.mul_le_mul_right _ (by omega)
        omega
      exact ih m rn (x1 - (qn : Int) * x0) x0 hfuel2 hg2 hm hx0 hx0new hsign2 hmag2 hmz2
    · -- loop exit: a = 1
      have ha1 : a = 1 := by omega
      have hret : modInverseAux (fuel + 1) a m x0 x1 = x1 := by
        simp [modInverseAux, hloop]
      rw [hret]
      subst ha1
      refine ⟨by simpa using hx1, ?_⟩
      rcases Nat.eq_zero_or_pos m with hm | hm
      · exact hmz hm
      · simp only [one_mul] at hmag
        rcases Nat.lt_or_ge x1.natAbs m0 with h | h
        · exact h
        · exfalso
          have h1 : x1.natAbs ≤ m * x1.natAbs := Nat.le_mul_of_pos_left _ hm
          have hBm : x1.natAbs = m0 := by omega
          have hA : x0.natAbs = 0 := by omega
          have hx00 : x0 = 0 := Int.natAbs_eq_zero.mp hA
          rw [hx00] at hx0
          have hd1 : (m0 : Int) ∣ (m : Int) - 0 * (a0 : Int) := Int.ModEq.dvd hx0
          have hd2 : (m0 : Int) ∣ (m : Int) := by simpa using hd1
          have hdvd : m0 ∣ m := Int.natCast_dvd_natCast.mp hd2
          have hge : m0 ≤ m := Nat.le_of_dvd hm hdvd
          have h2m : 2 * x1.natAbs ≤ m * x1.natAbs :=
            Nat.mul_le_mul_right _ (by omega)
          omega

/-- `RSA.modInverse(a, m)` on coprime inputs with `m > 1` returns the
modular inverse of `a`, strictly between `0` and `m`. -/
theorem modInverse_spec (a m : Nat) (hm : 1 < m) (ha : 0 < a)
    (hco : Nat.gcd a m = 1) :
    0 < modInverse a m ∧ modInverse a m < m ∧
      a * (modInverse a m).toNat % m = 1 := by
  have hm0 : 2 ≤ m := hm
  have hmain := modInverseAux_spec a m hm0 (m + 2) a m 0 1 (by omega) hco ha
    (by simp)
    ((Int.modEq_iff_dvd).mpr (by simp))
    (Or.inl ⟨le_refl 0, zero_le_one⟩)
    (by simp)
    (by omega)
  obtain ⟨hcong, habs⟩ := hmain
  set x1 := modInverseAux (m + 2) a m 0 1 with hx1def
  have hmne : modInverse a m = if x1 < 0 then x1 + m else x1 := by
    unfold modInverse
    rw [if_neg (by omega : ¬ m = 1)]
  have hrange : 0 ≤ modInverse a m ∧ modInverse a m < m := by
    rw [hmne]
    by_cases hneg : x1 < 0
    · rw [if_pos hneg]
      have he : (x1.natAbs : Int) = -x1 := Int.ofNat_natAbs_of_nonpos (le_of_lt hneg)
      have hlt2 : -x1 < (m : Int) := by
        rw [← he]
        exact_mod_cast habs
      constructor
      · linarith
      · linarith
    · rw [if_neg hneg]
      push_neg at hneg
      have he : (x1.natAbs : Int) = x1 := Int.natAbs_of_nonneg hneg
      have hlt2 : x1 < (m : Int) := by
        rw [← he]
        exact_mod_cast habs
      exact ⟨hneg, hlt2⟩
  have hcong2 : Int.ModEq m (modInverse a m * a) 1 := by
    rw [hmne]
    by_cases hneg : x1 < 0
    · rw [if_pos hneg]
      have hmm0 : Int.ModEq (m : Int) (m : Int) 0 := (Int.modEq_iff_dvd).mpr (by simp)
      calc (x1 + m) * (a : Int)
          = x1 * a + m * a := by ring
        _ ≡ x1 * a + 0 * a [ZMOD (m : Int)] :=
            Int.ModEq.add_left _ (Int.ModEq.mul_right _ hmm0)
        _ = x1 * a := by ring
        _ ≡ 1 [ZMOD (m : Int)] := hcong
    · rw [if_neg hneg]
      exact hcong
  have hnn : 0 ≤ modInverse a m := hrange.1
  have hlt : modInverse a m < m := hrange.2
  obtain ⟨R, hRdef⟩ : ∃ t, (modInverse a m).toNat = t := ⟨_, rfl⟩
  have hR : (R : Int) = modInverse a m := by
    rw [← hRdef]
    exact Int.toNat_of_nonneg hnn
  have h1m : (1 : Int) % (m : Int) = 1 :=
    Int.emod_eq_of_lt (by omega) (by exact_mod_cast hm)
  have hc3 : (modInverse a m * a) % (m : Int) = 1 % (m : Int) := hcong2
  have hfin : ((a * R % m : Nat) : Int) = ((1 : Nat) : Int) := by
    push_cast
    rw [show (a : Int) * R = modInverse a m * a by rw [← hR]; ring, hc3, h1m]
  have hfinN : a * R % m = 1 := by exact_mod_cast hfin
  have hpos : 0 < modInverse a m := by
    rcases lt_or_eq_of_le hnn with h | h
    · exact h
    · exfalso
      have hz : Int.ModEq m (0 * (a : Int)) 1 := by
        rw [← h] at hcong2
        exact hcong2
      have hd1 : (m : Int) ∣ 1 - 0 * (a : Int) := Int.ModEq.dvd hz
      have hd2 : (m : Int) ∣ ((1 : Nat) : Int) := by simpa using hd1
      have hd3 : m ∣ 1 := Int.natCast_dvd_natCast.mp hd2
      have := Nat.le_of_dvd one_pos hd3
      omega
  exact ⟨hpos, hlt, by rw [hRdef]; exact hfinN⟩

/-! ### C7: invariants of the assembled private key -/

/-- **C7**: every key pair assembled by `generateKeys` from two accepted
primes `p` and `q` (distinct, odd — the generator only emits odd primes
`2c + 1` — and with the `gcd(e, phi) = 1` check passed) satisfies the
private-key invariants: `e * d ≡ 1 (mod phi)` with
`phi = (p-1) * (q-1)`, `dp = d mod (p-1)`, `dq = d mod (q-1)`, and
`q * qinv ≡ 1 (mod p)` with `0 < qinv < p`; `modInverse` is proved to be
a correct modular inverse on the coprime arguments involved. -/
theorem generateKeys_invariants (p q : Nat)
    (hp : p.Prime) (hq : q.Prime) (hpq : p ≠ q) (hp2 : 2 < p)
    (hgcd : gcd 65537 ((p - 1) * (q - 1)) = 1) :
    (assembleKey p q).e * (assembleKey p q).d % (assembleKey p q).phi = 1 ∧
    (assembleKey p q).dp = (assembleKey p q).d % (p - 1) ∧
    (assembleKey p q).dq = (assembleKey p q).d % (q - 1) ∧
    q * (assembleKey p q).qinv % p = 1 ∧
    0 < (assembleKey p q).qinv ∧ (assembleKey p q).qinv < p := by
  have hq2 : 2 ≤ q := hq.two_le
  have hphi : 1 < (p - 1) * (q - 1) := by
    have h1 : 2 ≤ p - 1 := by omega
    have h2 : 1 ≤ q - 1 := by omega
    calc 1 < 2 * 1 := by norm_num
      _ ≤ (p - 1) * (q - 1) := Nat.mul_le_mul h1 h2
  have hgcd2 : Nat.gcd 65537 ((p - 1) * (q - 1)) = 1 := by
    rw [← gcd_eq]; exact hgcd
  have hd := modInverse_spec 65537 ((p - 1) * (q - 1)) hphi (by norm_num) hgcd2
  have hqp : Nat.gcd q p = 1 := (Nat.coprime_primes hq hp).mpr (Ne.symm hpq)
  have hqinv := modInverse_spec q p hp.one_lt (by omega) hqp
  refine ⟨hd.2.2, rfl, rfl, hqinv.2.2, ?_, ?_⟩
  · show 0 < (modInverse q p).toNat
    omega
  · show (modInverse q p).toNat < p
    omega

/-- Witness for C7 at the concrete key built from the primes 61 and 53. -/
theorem generateKeys_invariants_witness :
    (assembleKey 61 53).e * (assembleKey 61 53).d % (assembleKey 61 53).phi = 1 ∧
    (assembleKey 61 53).dp = (assembleKey 61 53).d % (61 - 1) ∧
    (assembleKey 61 53).dq = (assembleKey 61 53).d % (53 - 1) ∧
    53 * (assembleKey 61 53).qinv % 61 = 1 ∧
    0 < (assembleKey 61 53).qinv ∧ (assembleKey 61 53).qinv < 61 :=
  generateKeys_invariants 61 53 (by decide) (by decide) (by decide) (by decide)
    (by decide)

/-! ### C6: exponent blinding preserves the private operation -/

/-- **C6**: for every ciphertext coprime to `n`, every blinding value
`r`, and every valid private key, the blinded exponentiation
`c ^ (d + r * phi) mod n` equals the naive `c ^ d mod n`; in particular
the integer computed by `decryptBlinding` (for any 16-bit-masked BBS
draw) equals the naive private operation. -/
theorem decryptBlinding_eq_naive (key : PrivateKey) (hv : ValidPrivateKey key)
    (c : Nat) (hco : Nat.Coprime c key.n) (r rDraw : Nat) :
    modPow c (key.d + r * key.phi) key.n = modPow c key.d key.n ∧
    decryptBlindingM c key rDraw = modPow c key.d key.n := by
  have hmain : ∀ r1 : Nat, modPow c (key.d + r1 * key.phi) key.n = modPow c key.d key.n := by
    intro r1
    have hn1 : 1 < key.n := by
      rw [hv.nEq]
      calc 1 < 2 * 2 := by norm_num
        _ ≤ key.p * key.q := Nat.mul_le_mul hv.pPrime.two_le hv.qPrime.two_le
    rw [modPow_eq _ _ _ hn1, modPow_eq _ _ _ hn1]
    have hcopq : Nat.Coprime key.p key.q :=
      (Nat.coprime_primes hv.pPrime hv.qPrime).mpr hv.pq
    have htot : Nat.totient key.n = key.phi := by
      rw [hv.nEq, Nat.totient_mul hcopq, Nat.totient_prime hv.pPrime,
        Nat.totient_prime hv.qPrime, hv.phiEq]
    have heuler : c ^ key.phi ≡ 1 [MOD key.n] := by
      rw [← htot]
      exact Nat.ModEq.pow_totient hco
    have hpow : c ^ (key.d + r1 * key.phi) ≡ c ^ key.d [MOD key.n] := by
      calc c ^ (key.d + r1 * key.phi)
          = c ^ key.d * (c ^ key.phi) ^ r1 := by
            rw [pow_add, mul_comm r1 key.phi, pow_mul]
        _ ≡ c ^ key.d * 1 ^ r1 [MOD key.n] :=
            Nat.ModEq.mul_left _ (Nat.ModEq.pow r1 heuler)
        _ = c ^ key.d := by rw [one_pow, mul_one]
    exact hpow
  exact ⟨hmain r, hmain (rDraw &&& 0xFFFF)⟩

/-- The small witness key `keySmall` satisfies the generated-key
invariants. -/
theorem keySmall_valid : ValidPrivateKey keySmall :=
  ⟨by decide, by decide, by decide, by decide, by decide, rfl, rfl, by rfl,
    rfl, rfl, by decide, by rfl⟩

/-- Witness for C6 at the key `keySmall`, ciphertext 2, blinding draws 5
and 70000. -/
theorem decryptBlinding_eq_naive_witness :
    modPow 2 (keySmall.d + 5 * keySmall.phi) keySmall.n = modPow 2 keySmall.d keySmall.n ∧
    decryptBlindingM 2 keySmall 70000 = modPow 2 keySmall.d keySmall.n :=
  decryptBlinding_eq_naive keySmall keySmall_valid 2 (by decide) 5 70000

/-! ### C8: shape of the BBS draws -/

theorem drawBits_lt (n : Nat) : ∀ (b : BBS) (acc : Nat),
    (drawBits n b acc).1 < (acc + 1) * 2 ^ n := by
  induction n with
  | zero => intro b acc; simp [drawBits]
  | succ n ih =>
    intro b acc
    have hbit : (nextBit b).1 ≤ 1 := Nat.le_of_lt_succ (Nat.mod_lt _ (by norm_num))
    have h := ih (nextBit b).2 (acc * 2 + (nextBit b).1)
    have hle : (acc * 2 + (nextBit b).1 + 1) * 2 ^ n ≤ (acc + 1) * 2 ^ (n + 1) := by
      have h1 : acc * 2 + (nextBit b).1 + 1 ≤ (acc + 1) * 2 := by omega
      calc (acc * 2 + (nextBit b).1 + 1) * 2 ^ n
          ≤ (acc + 1) * 2 * 2 ^ n := Nat.mul_le_mul_right _ h1
        _ = (acc + 1) * 2 ^ (n + 1) := by ring
    calc (drawBits (n + 1) b acc).1
        = (drawBits n (nextBit b).2 (acc * 2 + (nextBit b).1)).1 := by
          simp [drawBits]
      _ < (acc * 2 + (nextBit b).1 + 1) * 2 ^ n := h
      _ ≤ (acc + 1) * 2 ^ (n + 1) := hle

/-- **C8** (amended: the claim holds for every draw width `n ≥ 2`; at
`n = 1` the result is `3`, of bit length 2): for every BBS state,
`nextBits(n)` returns an odd integer congruent to 3 mod 4 whose bit
length is exactly `n` (that is, `2^(n-1) ≤ result < 2^n`). -/
theorem nextBits_shape (b : BBS) (n : Nat) (hn : 2 ≤ n) :
    (nextBits n b).1 % 2 = 1 ∧ (nextBits n b).1 % 4 = 3 ∧
    2 ^ (n - 1) ≤ (nextBits n b).1 ∧ (nextBits n b).1 < 2 ^ n ∧
    Nat.size (nextBits n b).1 = n := by
  have hr0 : (drawBits n b 0).1 < 2 ^ n := by
    have := drawBits_lt n b 0
    simpa using this
  obtain ⟨r0, hr0def⟩ : ∃ t, (drawBits n b 0).1 = t := ⟨_, rfl⟩
  rw [hr0def] at hr0
  have hres : (nextBits n b).1 = (r0 ||| 2 ^ (n - 1) ||| 1) -
      (r0 ||| 2 ^ (n - 1) ||| 1) % 4 + 3 := by
    simp only [nextBits]
    rw [hr0def]
  obtain ⟨r2, hr2def⟩ : ∃ t, r0 ||| 2 ^ (n - 1) ||| 1 = t := ⟨_, rfl⟩
  rw [hr2def] at hres
  have hp1 : 2 ^ (n - 1) < 2 ^ n := Nat.pow_lt_pow_right one_lt_two (by omega)
  have h1n : 1 < 2 ^ n := Nat.one_lt_two_pow_iff.mpr (by omega)
  have hr2lt : r2 < 2 ^ n := by
    rw [← hr2def]
    exact Nat.or_lt_two_pow (Nat.or_lt_two_pow hr0 hp1) h1n
  have hr2ge : 2 ^ (n - 1) ≤ r2 := by
    rw [← hr2def]
    apply Nat.testBit_implies_ge
    rw [Nat.testBit_or, Nat.testBit_or, Nat.testBit_two_pow_self]
    simp
  have hdm : 4 * (r2 / 4) + r2 % 4 = r2 := Nat.div_add_mod r2 4
  have hresq : (nextBits n b).1 = 4 * (r2 / 4) + 3 := by omega
  have hd4 : (4 : Nat) ∣ 2 ^ n := by
    refine ⟨2 ^ (n - 2), ?_⟩
    have : (4 : Nat) = 2 ^ 2 := by norm_num
    rw [this, ← pow_add]
    congr 1
    omega
  have hq4 : 4 * (2 ^ n / 4) = 2 ^ n := Nat.mul_div_cancel' hd4
  have hqlt : r2 / 4 < 2 ^ n / 4 := Nat.div_lt_div_of_lt_of_dvd hd4 hr2lt
  have hlt : (nextBits n b).1 < 2 ^ n := by omega
  have hge : 2 ^ (n - 1) ≤ (nextBits n b).1 := by
    rcases Nat.lt_or_ge n 3 with h3 | h3
    · have hn2 : n = 2 := by omega
      subst hn2
      simp only [show (2 : Nat) - 1 = 1 from rfl]
      omega
    · have hd4p : (4 : Nat) ∣ 2 ^ (n - 1) := by
        refine ⟨2 ^ (n - 3), ?_⟩
        have : (4 : Nat) = 2 ^ 2 := by norm_num
        rw [this, ← pow_add]
        congr 1
        omega
      have hq4p : 4 * (2 ^ (n - 1) / 4) = 2 ^ (n - 1) := Nat.mul_div_cancel' hd4p
      have hqge : 2 ^ (n - 1) / 4 ≤ r2 / 4 := Nat.div_le_div_right hr2ge
      omega
  have hsize : Nat.size (nextBits n b).1 = n := by
    have hs1 : Nat.size (nextBits n b).1 ≤ n := Nat.size_le.mpr hlt
    have hs2 : n - 1 < Nat.size (nextBits n b).1 := Nat.lt_size.mpr hge
    omega
  refine ⟨by omega, by omega, hge, hlt, hsize⟩

/-- Witness for C8 at the BBS state `(m = 499 * 547, x = 3)` and width 4. -/
theorem nextBits_shape_witness :
    (nextBits 4 ⟨499 * 547, 3⟩).1 % 2 = 1 ∧ (nextBits 4 ⟨499 * 547, 3⟩).1 % 4 = 3 ∧
    2 ^ (4 - 1) ≤ (nextBits 4 ⟨499 * 547, 3⟩).1 ∧ (nextBits 4 ⟨499 * 547, 3⟩).1 < 2 ^ 4 ∧
    Nat.size (nextBits 4 ⟨499 * 547, 3⟩).1 = 4 :=
  nextBits_shape ⟨499 * 547, 3⟩ 4 (by decide)

/-- Counterexample for C8 as stated: at draw width `n = 1` (BBS modulus
21, state 1) the result is `3`, whose bit length is 2, not 1. -/
theorem nextBits_width_one_counterexample :
    (nextBits 1 ⟨21, 1⟩).1 = 3 ∧ ¬ Nat.size (nextBits 1 ⟨21, 1⟩).1 = 1 := by
  have hv : (nextBits 1 ⟨21, 1⟩).1 = 3 := by decide
  refine ⟨hv, ?_⟩
  rw [hv]
  have h1 : Nat.size 3 ≤ 2 := Nat.size_le.mpr (by norm_num)
  have h2 : 1 < Nat.size 3 := Nat.lt_size.mpr (by norm_num)
  omega

/-! ### C1: the generated primes need not be safe primes -/

/-- **C1** (code bug): `findPrimeRSA` with `format2pAdd1 = true` never
tests the drawn candidate `c` for primality, only `2c + 1`.  At the BBS
state `(m = 499 * 547, x = 3)` with width 4 the first shaped candidate
is `c = 15 = 3 * 5`, which is composite, yet `2c + 1 = 31` passes
Miller-Rabin, so the function returns `31`: a prime that is not a safe
prime, since `(31 - 1) / 2 = 15` is not prime.  This contradicts the
claim (and the spec's `findSafePrime`, which demands that the half
`p'` be prime as well). -/
theorem findPrimeRSA_returns_nonsafe_prime :
    (nextBits 4 ⟨499 * 547, 3⟩).1 = 15 ∧
    findPrimeRSA ⟨499 * 547, 3⟩ 4 true 10000 = some 31 ∧
    Nat.Prime 31 ∧ ¬ Nat.Prime ((31 - 1) / 2) :=
  ⟨by decide, by decide, by decide, by decide⟩

/-! ### Structural facts about the SHA-256 embedding -/

theorem round256_length (st : List Nat) (kw : Nat × Nat) :
    (round256 st kw).length = st.length := by
  unfold round256
  split
  · simp_all
  · rfl

theorem foldl_round256_length (l : List (Nat × Nat)) :
    ∀ hs : List Nat, (l.foldl round256 hs).length = hs.length := by
  induction l with
  | nil => intro hs; rfl
  | cons kw l ih =>
    intro hs
    rw [List.foldl_cons, ih, round256_length]

theorem processChunk_length (hs chunk : List Nat) (h : hs.length = 8) :
    (processChunk hs chunk).length = 8 := by
  unfold processChunk
  rw [List.length_map, List.length_zip, foldl_round256_length, h]
  simp

theorem foldl_processChunk_length (cs : List (List Nat)) :
    ∀ hs : List Nat, hs.length = 8 → (cs.foldl processChunk hs).length = 8 := by
  induction cs with
  | nil => intro hs h; exact h
  | cons c cs ih =>
    intro hs h
    rw [List.foldl_cons]
    exact ih _ (processChunk_length hs c h)

theorem wordBytesBE_length (w : Nat) : (wordBytesBE w).length = 4 := rfl

theorem wordBytesBE_lt (w : Nat) : ∀ b ∈ wordBytesBE w, b < 256 := by
  intro b hb
  simp only [wordBytesBE, List.mem_cons, List.not_mem_nil, or_false] at hb
  rcases hb with h | h | h | h <;> subst h <;> exact Nat.mod_lt _ (by norm_num)

theorem flatten_map_wordBytesBE_length (l : List Nat) :
    ((l.map wordBytesBE).flatten).length = 4 * l.length := by
  induction l with
  | nil => rfl
  | cons w l ih =>
    simp only [List.map_cons, List.flatten_cons, List.length_append, ih,
      wordBytesBE_length, List.length_cons]
    ring

theorem sha256DigestBytes_length (ascii : List Nat) :
    (sha256DigestBytes ascii).length = 32 := by
  unfold sha256DigestBytes
  rw [flatten_map_wordBytesBE_length, foldl_processChunk_length _ _ (by rfl)]

theorem sha256DigestBytes_lt (ascii : List Nat) :
    ∀ b ∈ sha256DigestBytes ascii, b < 256 := by
  intro b hb
  unfold sha256DigestBytes at hb
  rw [List.mem_flatten] at hb
  obtain ⟨l, hl, hbl⟩ := hb
  rw [List.mem_map] at hl
  obtain ⟨w, _, hw⟩ := hl
  subst hw
  exact wordBytesBE_lt w b hbl

theorem toHexDigit_hex (d : Nat) (hd : d < 16) :
    (48 ≤ toHexDigit d ∧ toHexDigit d ≤ 57) ∨
      (97 ≤ toHexDigit d ∧ toHexDigit d ≤ 102) := by
  unfold toHexDigit
  split
  · left; omega
  · right; omega

theorem byteToHex_hex (b : Nat) (hb : b < 256) :
    ∀ c ∈ byteToHex b, (48 ≤ c ∧ c ≤ 57) ∨ (97 ≤ c ∧ c ≤ 102) := by
  intro c hc
  simp only [byteToHex, List.mem_cons, List.not_mem_nil, or_false] at hc
  rcases hc with h | h <;> subst h
  · exact toHexDigit_hex _ (by omega)
  · exact toHexDigit_hex _ (Nat.mod_lt _ (by norm_num))

theorem bytesToHex_hex (l : List Nat) (hl : ∀ b ∈ l, b < 256) :
    ∀ c ∈ bytesToHex l, (48 ≤ c ∧ c ≤ 57) ∨ (97 ≤ c ∧ c ≤ 102) := by
  intro c hc
  unfold bytesToHex at hc
  rw [List.mem_flatten] at hc
  obtain ⟨cs, hcs, hccs⟩ := hc
  rw [List.mem_map] at hcs
  obtain ⟨b, hb, hbc⟩ := hcs
  exact byteToHex_hex b (hl b hb) c (hbc ▸ hccs)

theorem bytesToHex_length (l : List Nat) : (bytesToHex l).length = 2 * l.length := by
  unfold bytesToHex
  induction l with
  | nil => rfl
  | cons b l ih =>
    simp only [List.map_cons, List.flatten_cons, List.length_append, ih,
      List.length_cons, byteToHex, List.length_nil]
    ring

theorem hexVal_lt (c : Nat) : hexVal c < 16 := by
  unfold hexVal
  split
  · omega
  · split
    · omega
    · split
      · omega
      · norm_num

theorem hexVal_toHexDigit (d : Nat) (hd : d < 16) : hexVal (toHexDigit d) = d := by
  unfold hexVal toHexDigit
  split_ifs <;> omega

theorem hexToBytes_lt : ∀ l : List Nat, ∀ b ∈ hexToBytes l, b < 256
  | [] => by intro b hb; simp [hexToBytes] at hb
  | [c] => by intro b hb; simp [hexToBytes] at hb
  | c1 :: c2 :: rest => by
    intro b hb
    rw [show hexToBytes (c1 :: c2 :: rest) =
      (hexVal c1 * 16 + hexVal c2) :: hexToBytes rest from rfl, List.mem_cons] at hb
    rcases hb with h | h
    · have h1 := hexVal_lt c1
      have h2 := hexVal_lt c2
      omega
    · exact hexToBytes_lt rest b h

theorem hexToBytes_byteToHex (b : Nat) (hb : b < 256) (rest : List Nat) :
    hexToBytes (byteToHex b ++ rest) = b :: hexToBytes rest := by
  show hexToBytes (toHexDigit (b / 16) :: toHexDigit (b % 16) :: rest) = _
  rw [show hexToBytes (toHexDigit (b / 16) :: toHexDigit (b % 16) :: rest) =
    (hexVal (toHexDigit (b / 16)) * 16 + hexVal (toHexDigit (b % 16))) :: hexToBytes rest
    from rfl, hexVal_toHexDigit _ (by omega), hexVal_toHexDigit _ (Nat.mod_lt _ (by norm_num))]
  congr 1
  omega

theorem hexToBytes_bytesToHex (l : List Nat) (hl : ∀ b ∈ l, b < 256) :
    hexToBytes (bytesToHex l) = l := by
  induction l with
  | nil => rfl
  | cons b t ih =>
    unfold bytesToHex
    rw [List.map_cons, List.flatten_cons,
      hexToBytes_byteToHex b (hl b (List.mem_cons_self b t))]
    congr 1
    exact ih fun x hx => hl x (List.mem_cons_of_mem b hx)

theorem sha256Pad_le (ascii : List Nat) (h : ∀ c ∈ ascii, c ≤ 255) :
    ∀ c ∈ sha256Pad ascii, c ≤ 255 := by
  intro c hc
  unfold sha256Pad at hc
  rw [List.mem_append] at hc
  rcases hc with h1 | h1
  · exact h c h1
  · rw [List.mem_cons] at h1
    rcases h1 with h2 | h2
    · omega
    · rw [List.eq_of_mem_replicate h2]
      omega

/-- On inputs whose character codes fit in a byte, `sha256` succeeds and
the digest is the hex rendering of the 32 digest bytes. -/
theorem sha256_eq_some (ascii : List Nat) (h : ∀ c ∈ ascii, c ≤ 255) :
    sha256 ascii = some (bytesToHex (sha256DigestBytes ascii)) := by
  unfold sha256
  rw [if_pos]
  · rfl
  · rw [List.all_eq_true]
    intro c hc
    exact decide_eq_true (sha256Pad_le ascii h c hc)

theorem sha256_eq_none (ascii : List Nat) (h : ∃ c ∈ ascii, 255 < c) :
    sha256 ascii = none := by
  unfold sha256
  rw [if_neg]
  intro hall
  rw [List.all_eq_true] at hall
  obtain ⟨c, hc, hgt⟩ := h
  have : c ≤ 255 := of_decide_eq_true (hall c (by
    unfold sha256Pad
    exact List.mem_append.mpr (Or.inl hc)))
  omega

/-- The 32 bytes recovered from a successful digest. -/
theorem sha256_bytes (ascii : List Nat) (h : ∀ c ∈ ascii, c ≤ 255) :
    hexToBytes ((sha256 ascii).getD []) = sha256DigestBytes ascii := by
  rw [sha256_eq_some ascii h, Option.getD_some,
    hexToBytes_bytesToHex _ (sha256DigestBytes_lt ascii)]

/-- Sanity check against the spec's SHA-256 test vector:
`sha256("") = e3b0c442 98fc1c14 9afbf4c8 996fb924 27ae41e4 649b934c
a495991b 7852b855`. -/
theorem sha256_empty_vector :
    sha256DigestBytes [] =
      [0xe3, 0xb0, 0xc4, 0x42, 0x98, 0xfc, 0x1c, 0x14,
       0x9a, 0xfb, 0xf4, 0xc8, 0x99, 0x6f, 0xb9, 0x24,
       0x27, 0xae, 0x41, 0xe4, 0x64, 0x9b, 0x93, 0x4c,
       0xa4, 0x95, 0x99, 0x1b, 0x78, 0x52, 0xb8, 0x55] := by decide

/-- Sanity check against the spec's SHA-256 test vector:
`sha256("abc") = ba7816bf 8f01cfea 414140de 5dae2223 b00361a3 96177a9c
b410ff61 f20015ad`. -/
theorem sha256_abc_vector :
    sha256DigestBytes [97, 98, 99] =
      [0xba, 0x78, 0x16, 0xbf, 0x8f, 0x01, 0xcf, 0xea,
       0x41, 0x41, 0x40, 0xde, 0x5d, 0xae, 0x22, 0x23,
       0xb0, 0x03, 0x61, 0xa3, 0x96, 0x17, 0x7a, 0x9c,
       0xb4, 0x10, 0xff, 0x61, 0xf2, 0x00, 0x15, 0xad] := by decide

/-! ### C10: partiality of `Hash.sha256` -/

/-- **C10**: `Hash.sha256` is partial at its public interface: on every
input string whose character codes are all at most 255 it returns a
64-hex-character digest, and on every input containing a character code
above 255 it returns `undefined` (modelled `none`) instead of a digest —
so callers such as `signPSS` receive no valid hash for such messages. -/
theorem sha256_partial (ascii : List Nat) :
    ((∀ c ∈ ascii, c ≤ 255) ∧ ∃ d, sha256 ascii = some d ∧ d.length = 64 ∧
        ∀ c ∈ d, (48 ≤ c ∧ c ≤ 57) ∨ (97 ≤ c ∧ c ≤ 102)) ∨
      ((∃ c ∈ ascii, 255 < c) ∧ sha256 ascii = none) := by
  by_cases h : ∀ c ∈ ascii, c ≤ 255
  · left
    refine ⟨h, bytesToHex (sha256DigestBytes ascii), sha256_eq_some ascii h, ?_, ?_⟩
    · rw [bytesToHex_length, sha256DigestBytes_length]
    · exact bytesToHex_hex _ (sha256DigestBytes_lt ascii)
  · right
    push_neg at h
    obtain ⟨c, hc, hgt⟩ := h
    exact ⟨⟨c, hc, hgt⟩, sha256_eq_none ascii ⟨c, hc, hgt⟩⟩

/-! ### Byte-string helpers: I2OSP, MGF1, XOR masking -/

theorem I2OSP_length (v L : Nat) : (I2OSP v L).length = L := by
  unfold I2OSP
  rw [List.length_map, List.length_range]

theorem I2OSP_lt (v L : Nat) : ∀ b ∈ I2OSP v L, b < 256 := by
  intro b hb
  unfold I2OSP at hb
  rw [List.mem_map] at hb
  obtain ⟨i, _, hi⟩ := hb
  rw [← hi]
  exact Nat.mod_lt _ (by norm_num)

theorem bytesToHex_le (l : List Nat) (hl : ∀ b ∈ l, b < 256) :
    ∀ c ∈ bytesToHex l, c ≤ 255 := by
  intro c hc
  rcases bytesToHex_hex l hl c hc with h | h <;> omega

theorem flatten_const_length (f : Nat → List Nat) (k : Nat) :
    ∀ c : Nat, (∀ i ∈ List.range c, (f i).length = k) →
      (((List.range c).map f).flatten).length = k * c := by
  intro c
  induction c with
  | zero => intro h; rfl
  | succ c ih =>
    intro h
    rw [List.range_succ, List.map_append, List.flatten_append, List.length_append,
      ih fun i hi => h i (List.mem_range.mpr (Nat.lt_succ_of_lt (List.mem_range.mp hi)))]
    simp only [List.map_cons, List.map_nil, List.flatten_cons, List.flatten_nil,
      List.append_nil]
    rw [h c (List.mem_range.mpr (Nat.lt_succ_self c))]
    ring

theorem MGF1_block (seed : List Nat) (hs : ∀ b ∈ seed, b < 256) (i : Nat) :
    hexToBytes ((sha256 (bytesToHex (seed ++ I2OSP i 4))).getD []) =
      sha256DigestBytes (bytesToHex (seed ++ I2OSP i 4)) := by
  apply sha256_bytes
  apply bytesToHex_le
  intro b hb
  rcases List.mem_append.mp hb with h | h
  · exact hs b h
  · exact I2OSP_lt i 4 b h

theorem MGF1_length (seed : List Nat) (L : Nat) (hs : ∀ b ∈ seed, b < 256) :
    (MGF1 seed L).length = L := by
  unfold MGF1
  rw [List.length_take]
  have hlen : (((List.range ((L + 31) / 32)).map fun i =>
      hexToBytes ((sha256 (bytesToHex (seed ++ I2OSP i 4))).getD [])).flatten).length =
      32 * ((L + 31) / 32) := by
    apply flatten_const_length
    intro i _
    rw [MGF1_block seed hs i, sha256DigestBytes_length]
  rw [hlen]
  have := Nat.div_add_mod (L + 31) 32
  omega

theorem MGF1_lt (seed : List Nat) (L : Nat) : ∀ b ∈ MGF1 seed L, b < 256 := by
  intro b hb
  unfold MGF1 at hb
  have hb2 := List.mem_of_mem_take hb
  rw [List.mem_flatten] at hb2
  obtain ⟨l, hl, hbl⟩ := hb2
  rw [List.mem_map] at hl
  obtain ⟨i, _, hi⟩ := hl
  subst hi
  exact hexToBytes_lt _ b hbl

theorem xorBytes_length (a b : List Nat) :
    (xorBytes a b).length = min a.length b.length := List.length_zipWith _ _ _

theorem xorBytes_lt : ∀ a b : List Nat, (∀ x ∈ a, x < 256) → (∀ x ∈ b, x < 256) →
    ∀ x ∈ xorBytes a b, x < 256 := by
  intro a
  induction a with
  | nil => intro b _ _ x hx; simp [xorBytes] at hx
  | cons ha ta ih =>
    intro b hA hB x hx
    cases b with
    | nil => simp [xorBytes] at hx
    | cons hb tb =>
      rw [show xorBytes (ha :: ta) (hb :: tb) = (ha ^^^ hb) :: xorBytes ta tb from rfl,
        List.mem_cons] at hx
      rcases hx with h | h
      · subst h
        have h1 : ha < 2 ^ 8 :=
          lt_of_lt_of_le (hA ha (List.mem_cons_self _ _)) (by norm_num)
        have h2 : hb < 2 ^ 8 :=
          lt_of_lt_of_le (hB hb (List.mem_cons_self _ _)) (by norm_num)
        have := Nat.xor_lt_two_pow h1 h2
        norm_num at this
        exact this
      · exact ih tb (fun y hy => hA y (List.mem_cons_of_mem _ hy))
          (fun y hy => hB y (List.mem_cons_of_mem _ hy)) x h

theorem xorBytes_cancel : ∀ a b : List Nat, a.length = b.length →
    xorBytes (xorBytes a b) b = a := by
  intro a
  induction a with
  | nil => intro b h; cases b <;> rfl
  | cons ha ta ih =>
    intro b h
    cases b with
    | nil => simp at h
    | cons hb tb =>
      show (ha ^^^ hb ^^^ hb) :: xorBytes (xorBytes ta tb) tb = ha :: ta
      rw [Nat.xor_cancel_right, ih tb (by simpa using h)]

/-! ### C9: OAEP encoding length discipline -/

/-- **C9**: `OAEPEncode(M, label, k)` throws exactly when
`|M| > k - 2*hLen - 2` (equivalently `k < |M| + 66`, with `hLen = 32`);
on success the encoded block is exactly `k` bytes and starts with
`0x00`.  The seed is the 32-byte BBS draw; label and message bytes are
in range, as produced by the callers. -/
theorem OAEPEncode_spec (message label : List Nat) (k : Nat) (seed : List Nat)
    (hseed : seed.length = 32) (hseedlt : ∀ b ∈ seed, b < 256)
    (hmsg : ∀ b ∈ message, b < 256) (hlabel : ∀ c ∈ label, c ≤ 255) :
    (OAEPEncode message label k seed = none ↔ k < message.length + 2 * 32 + 2) ∧
    (∀ EM, OAEPEncode message label k seed = some EM →
      EM.length = k ∧ EM.head? = some 0) := by
  by_cases hk : k < message.length + 2 * 32 + 2
  · constructor
    · rw [show OAEPEncode message label k seed = none by unfold OAEPEncode; rw [if_pos hk]]
      simp [hk]
    · intro EM hEM
      rw [show OAEPEncode message label k seed = none by
        unfold OAEPEncode; rw [if_pos hk]] at hEM
      exact absurd hEM (by simp)
  · have hsome : OAEPEncode message label k seed =
        some (0 :: xorBytes seed (MGF1 (xorBytes
            (hexToBytes (bytesToHex (sha256DigestBytes label)) ++
              List.replicate (k - message.length - 2 * 32 - 2) 0 ++ 1 :: message)
            (MGF1 seed (k - 32 - 1))) 32) ++ xorBytes
            (hexToBytes (bytesToHex (sha256DigestBytes label)) ++
              List.replicate (k - message.length - 2 * 32 - 2) 0 ++ 1 :: message)
            (MGF1 seed (k - 32 - 1))) := by
      unfold OAEPEncode
      rw [if_neg hk, sha256_eq_some label hlabel]
    rw [hsome]
    have hlhash : (hexToBytes (bytesToHex (sha256DigestBytes label))).length = 32 ∧
        ∀ b ∈ hexToBytes (bytesToHex (sha256DigestBytes label)), b < 256 := by
      rw [hexToBytes_bytesToHex _ (sha256DigestBytes_lt label)]
      exact ⟨sha256DigestBytes_length label, sha256DigestBytes_lt label⟩
    have hDBlen : (hexToBytes (bytesToHex (sha256DigestBytes label)) ++
        List.replicate (k - message.length - 2 * 32 - 2) 0 ++ 1 :: message).length =
        k - 32 - 1 := by
      rw [List.length_append, List.length_append, hlhash.1, List.length_replicate,
        List.length_cons]
      omega
    have hDBlt : ∀ b ∈ hexToBytes (bytesToHex (sha256DigestBytes label)) ++
        List.replicate (k - message.length - 2 * 32 - 2) 0 ++ 1 :: message, b < 256 := by
      intro b hb
      rcases List.mem_append.mp hb with h | h
      · rcases List.mem_append.mp h with h2 | h2
        · exact hlhash.2 b h2
        · rw [List.eq_of_mem_replicate h2]; norm_num
      · rcases List.mem_cons.mp h with h2 | h2
        · omega
        · exact hmsg b h2
    have hmDBlen : (xorBytes
        (hexToBytes (bytesToHex (sha256DigestBytes label)) ++
          List.replicate (k - message.length - 2 * 32 - 2) 0 ++ 1 :: message)
        (MGF1 seed (k - 32 - 1))).length = k - 32 - 1 := by
      rw [xorBytes_length, hDBlen, MGF1_length seed _ hseedlt]
      omega
    have hmDBlt : ∀ b ∈ xorBytes
        (hexToBytes (bytesToHex (sha256DigestBytes label)) ++
          List.replicate (k - message.length - 2 * 32 - 2) 0 ++ 1 :: message)
        (MGF1 seed (k - 32 - 1)), b < 256 :=
      xorBytes_lt _ _ hDBlt (MGF1_lt _ _)
    constructor
    · constructor
      · intro h; exact absurd h (by simp)
      · intro h; omega
    · intro EM hEM
      have hEMval := Option.some_injective _ hEM
      rw [← hEMval]
      refine ⟨?_, rfl⟩
      rw [List.length_append, List.length_cons, xorBytes_length, hseed,
        MGF1_length _ _ hmDBlt, hmDBlen]
      omega

/-- Witness for C9: empty message, empty label, `k = 66`, all-sevens
seed. -/
theorem OAEPEncode_spec_witness :
    (OAEPEncode [] [] 66 (List.replicate 32 7) = none ↔
      66 < ([] : List Nat).length + 2 * 32 + 2) ∧
    (∀ EM, OAEPEncode [] [] 66 (List.replicate 32 7) = some EM →
      EM.length = 66 ∧ EM.head? = some 0) :=
  OAEPEncode_spec [] [] 66 (List.replicate 32 7) (by decide) (by decide)
    (by decide) (by decide)

/-! ### Big-endian byte strings and integers -/

theorem osToInt_foldl (l : List Nat) : ∀ acc : Nat,
    l.foldl (fun acc b => acc * 256 + b) acc = acc * 256 ^ l.length + osToInt l := by
  induction l with
  | nil => intro acc; simp [osToInt]
  | cons b t ih =>
    intro acc
    show t.foldl (fun acc b => acc * 256 + b) (acc * 256 + b) = _
    rw [ih (acc * 256 + b)]
    have hbt : osToInt (b :: t) = b * 256 ^ t.length + osToInt t := by
      show t.foldl (fun acc b => acc * 256 + b) (0 * 256 + b) = _
      rw [ih (0 * 256 + b)]
      ring
    rw [hbt, List.length_cons]
    ring

theorem osToInt_cons (b : Nat) (t : List Nat) :
    osToInt (b :: t) = b * 256 ^ t.length + osToInt t := by
  show t.foldl (fun acc b => acc * 256 + b) (0 * 256 + b) = _
  rw [osToInt_foldl]
  ring

theorem osToInt_append (l1 l2 : List Nat) :
    osToInt (l1 ++ l2) = osToInt l1 * 256 ^ l2.length + osToInt l2 := by
  unfold osToInt
  rw [List.foldl_append, osToInt_foldl]
  rfl

theorem osToInt_lt (l : List Nat) (hl : ∀ b ∈ l, b < 256) :
    osToInt l < 256 ^ l.length := by
  induction l with
  | nil => simp [osToInt]
  | cons b t ih =>
    rw [osToInt_cons, List.length_cons]
    have hb : b < 256 := hl b (List.mem_cons_self _ _)
    have ht : osToInt t < 256 ^ t.length := ih fun x hx => hl x (List.mem_cons_of_mem _ hx)
    calc b * 256 ^ t.length + osToInt t
        < b * 256 ^ t.length + 256 ^ t.length := by omega
      _ = (b + 1) * 256 ^ t.length := by ring
      _ ≤ 256 * 256 ^ t.length := Nat.mul_le_mul_right _ (by omega)
      _ = 256 ^ (t.length + 1) := by ring

theorem osToInt_replicate_zero (j : Nat) : osToInt (List.replicate j 0) = 0 := by
  induction j with
  | zero => rfl
  | succ j ih =>
    rw [List.replicate_succ, osToInt_cons, ih]
    simp

theorem osToInt_inj : ∀ l1 l2 : List Nat, (∀ b ∈ l1, b < 256) → (∀ b ∈ l2, b < 256) →
    l1.length = l2.length → osToInt l1 = osToInt l2 → l1 = l2 := by
  intro l1
  induction l1 with
  | nil =>
    intro l2 _ _ hlen _
    cases l2 with
    | nil => rfl
    | cons b t => simp at hlen
  | cons b1 t1 ih =>
    intro l2 h1 h2 hlen hval
    cases l2 with
    | nil => simp at hlen
    | cons b2 t2 =>
      have hlt : t1.length = t2.length := by simpa using hlen
      rw [osToInt_cons, osToInt_cons, hlt] at hval
      have hr1 : osToInt t1 < 256 ^ t2.length := by
        rw [← hlt]
        exact osToInt_lt t1 fun x hx => h1 x (List.mem_cons_of_mem _ hx)
      have hr2 : osToInt t2 < 256 ^ t2.length :=
        osToInt_lt t2 fun x hx => h2 x (List.mem_cons_of_mem _ hx)
      have hb : b1 = b2 ∧ osToInt t1 = osToInt t2 := by
        obtain ⟨X, hX⟩ : ∃ t, 256 ^ t2.length = t := ⟨_, rfl⟩
        rw [hX] at hval hr1 hr2
        constructor
        · by_contra hne
          rcases Nat.lt_or_ge b1 b2 with h | h
          · have : b1 * X + X ≤ b2 * X := by
              calc b1 * X + X = (b1 + 1) * X := by ring
                _ ≤ b2 * X := Nat.mul_le_mul_right _ (by omega)
            omega
          · have hlt2 : b2 < b1 := by omega
            have : b2 * X + X ≤ b1 * X := by
              calc b2 * X + X = (b2 + 1) * X := by ring
                _ ≤ b1 * X := Nat.mul_le_mul_right _ (by omega)
            omega
        · by_contra hne
          rcases Nat.lt_or_ge b1 b2 with h | h
          · have : b1 * X + X ≤ b2 * X := by
              calc b1 * X + X = (b1 + 1) * X := by ring
                _ ≤ b2 * X := Nat.mul_le_mul_right _ (by omega)
            omega
          · rcases Nat.lt_or_ge b2 b1 with h3 | h3
            · have : b2 * X + X ≤ b1 * X := by
                calc b2 * X + X = (b2 + 1) * X := by ring
                  _ ≤ b1 * X := Nat.mul_le_mul_right _ (by omega)
              omega
            · have : b1 = b2 := by omega
              subst this
              omega
      rw [hb.1, ih t2 (fun x hx => h1 x (List.mem_cons_of_mem _ hx))
        (fun x hx => h2 x (List.mem_cons_of_mem _ hx)) hlt hb.2]

theorem natBytesAux_spec : ∀ fuel n, n < fuel →
    osToInt (natBytesAux fuel n) = n ∧ (∀ b ∈ natBytesAux fuel n, b < 256) ∧
      ∀ L, n < 256 ^ L → (natBytesAux fuel n).length ≤ L := by
  intro fuel
  induction fuel with
  | zero => intro n h; exact absurd h (Nat.not_lt_zero n)
  | succ fuel ih =>
    intro n hn
    by_cases h0 : n = 0
    · subst h0
      refine ⟨rfl, by simp [natBytesAux], fun L _ => by simp [natBytesAux]⟩
    · have hstep : natBytesAux (fuel + 1) n = natBytesAux fuel (n / 256) ++ [n % 256] := by
        simp [natBytesAux, h0]
      have hrec : n / 256 < fuel := by
        have h1 : n / 256 < n := Nat.div_lt_self (Nat.pos_of_ne_zero h0) (by norm_num)
        omega
      obtain ⟨hval, hok, hlen⟩ := ih (n / 256) hrec
      rw [hstep]
      refine ⟨?_, ?_, ?_⟩
      · rw [osToInt_append, hval]
        have : osToInt [n % 256] = n % 256 := by
          rw [show [n % 256] = n % 256 :: ([] : List Nat) from rfl, osToInt_cons]
          simp [osToInt]
        rw [this]
        simp only [List.length_cons, List.length_nil, pow_one]
        omega
      · intro b hb
        rcases List.mem_append.mp hb with h | h
        · exact hok b h
        · rw [List.mem_singleton.mp h]
          exact Nat.mod_lt _ (by norm_num)
      · intro L hL
        have hL1 : 1 ≤ L := by
          rcases Nat.eq_zero_or_pos L with h | h
          · subst h; simp at hL; omega
          · exact h
        have hdiv : n / 256 < 256 ^ (L - 1) := by
          rw [Nat.div_lt_iff_lt_mul (by norm_num : (0:Nat) < 256)]
          calc n < 256 ^ L := hL
            _ = 256 ^ (L - 1) * 256 := by
              rw [← pow_succ]
              congr 1
              omega
        rw [List.length_append]
        have := hlen (L - 1) hdiv
        simp only [List.length_cons, List.length_nil]
        omega

theorem osToInt_natToBytes (n : Nat) : osToInt (natToBytes n) = n := by
  unfold natToBytes
  by_cases h0 : n = 0
  · subst h0; rfl
  · rw [if_neg h0]
    exact (natBytesAux_spec (n + 1) n (Nat.lt_succ_self n)).1

theorem natToBytes_lt (n : Nat) : ∀ b ∈ natToBytes n, b < 256 := by
  unfold natToBytes
  by_cases h0 : n = 0
  · subst h0; intro b hb; simp at hb; omega
  · rw [if_neg h0]
    exact (natBytesAux_spec (n + 1) n (Nat.lt_succ_self n)).2.1

theorem natToBytes_length_le (n L : Nat) (hL : 1 ≤ L) (hn : n < 256 ^ L) :
    (natToBytes n).length ≤ L := by
  unfold natToBytes
  by_cases h0 : n = 0
  · subst h0; simpa using hL
  · rw [if_neg h0]
    exact (natBytesAux_spec (n + 1) n (Nat.lt_succ_self n)).2.2 L hn

theorem padLeft_length (k : Nat) (l : List Nat) (h : l.length ≤ k) :
    (padLeft k l).length = k := by
  unfold padLeft
  rw [List.length_append, List.length_replicate]
  omega

theorem osToInt_padLeft (k : Nat) (l : List Nat) :
    osToInt (padLeft k l) = osToInt l := by
  unfold padLeft
  rw [osToInt_append, osToInt_replicate_zero]
  ring

theorem padLeft_lt (k : Nat) (l : List Nat) (hl : ∀ b ∈ l, b < 256) :
    ∀ b ∈ padLeft k l, b < 256 := by
  intro b hb
  rcases List.mem_append.mp hb with h | h
  · rw [List.eq_of_mem_replicate h]; norm_num
  · exact hl b h

/-- Round trip: the source's render-as-hex-then-left-pad of the integer
value of a `k`-byte string recovers the string. -/
theorem padLeft_natToBytes_osToInt (l : List Nat) (hl : ∀ b ∈ l, b < 256)
    (hk : 1 ≤ l.length) :
    padLeft l.length (natToBytes (osToInt l)) = l := by
  have h1 : (natToBytes (osToInt l)).length ≤ l.length :=
    natToBytes_length_le _ _ hk (osToInt_lt l hl)
  apply osToInt_inj
  · exact padLeft_lt _ _ (natToBytes_lt _)
  · exact hl
  · exact padLeft_length _ _ h1
  · rw [osToInt_padLeft, osToInt_natToBytes]

/-! ### Bit lengths -/

theorem bitLenAux_zero : ∀ fuel, bitLenAux fuel 0 = 0 := by
  intro fuel
  cases fuel <;> simp [bitLenAux]

theorem bitLenAux_spec : ∀ fuel n, n < fuel →
    n < 2 ^ bitLenAux fuel n ∧
      (0 < n → 2 ^ (bitLenAux fuel n - 1) ≤ n ∧ 1 ≤ bitLenAux fuel n) := by
  intro fuel
  induction fuel with
  | zero => intro n h; exact absurd h (Nat.not_lt_zero n)
  | succ fuel ih =>
    intro n hn
    by_cases h0 : n = 0
    · subst h0
      rw [bitLenAux_zero]
      exact ⟨by norm_num, by omega⟩
    · have hstep : bitLenAux (fuel + 1) n = bitLenAux fuel (n / 2) + 1 := by
        simp [bitLenAux, h0]
      have hrec : n / 2 < fuel := by
        have := Nat.div_lt_self (Nat.pos_of_ne_zero h0) one_lt_two
        omega
      obtain ⟨hup, hlow⟩ := ih (n / 2) hrec
      rw [hstep]
      obtain ⟨Lp, hLp⟩ : ∃ t, bitLenAux fuel (n / 2) = t := ⟨_, rfl⟩
      rw [hLp] at hup hlow ⊢
      have hps : 2 ^ (Lp + 1) = 2 * 2 ^ Lp := by
        rw [pow_succ]
        ring
      constructor
      · have hdm := Nat.div_add_mod n 2
        omega
      · intro _
        refine ⟨?_, by omega⟩
        simp only [Nat.add_sub_cancel]
        by_cases hq : n / 2 = 0
        · have hn1 : n = 1 := by
            have := Nat.div_add_mod n 2
            omega
          rw [hq, bitLenAux_zero] at hLp
          rw [← hLp, hn1]
          norm_num
        · obtain ⟨hl1, hl2⟩ := hlow (Nat.pos_of_ne_zero hq)
          have hps2 : 2 ^ Lp = 2 * 2 ^ (Lp - 1) := by
            conv_lhs => rw [show Lp = Lp - 1 + 1 by omega]
            rw [pow_succ]
            ring
          have hdm := Nat.div_add_mod n 2
          omega

theorem bitLenJS_spec (n : Nat) (hn : 0 < n) :
    n < 2 ^ bitLenJS n ∧ 2 ^ (bitLenJS n - 1) ≤ n ∧ 1 ≤ bitLenJS n := by
  unfold bitLenJS
  rw [if_neg (by omega)]
  obtain ⟨h1, h2⟩ := bitLenAux_spec (n + 1) n (Nat.lt_succ_self n)
  exact ⟨h1, (h2 hn).1, (h2 hn).2⟩

/-! ### The RSA core: per-prime exponent cancellation and CRT -/

theorem tmod_gt_neg (a : Int) {b : Int} (hb : 0 < b) : -b < a.tmod b := by
  rcases a with m | m <;> rcases b with n | n
  · simp only [Int.ofNat_eq_coe] at hb ⊢
    have h := Int.tmod_nonneg ((n : Int))
      (show (0:Int) ≤ (m : Int) by exact_mod_cast Nat.zero_le m)
    omega
  · exact absurd hb (not_lt.mpr (le_of_lt (Int.negSucc_lt_zero n)))
  · have he : (Int.negSucc m).tmod (Int.ofNat n) = -Int.ofNat (m.succ % n) := rfl
    rw [he]
    simp only [Int.ofNat_eq_coe] at hb ⊢
    have hn : 0 < n := by exact_mod_cast hb
    have h2 : m.succ % n < n := Nat.mod_lt _ hn
    omega
  · exact absurd hb (not_lt.mpr (le_of_lt (Int.negSucc_lt_zero n)))

theorem tmod_modEq (H p : Int) : Int.ModEq p (H.tmod p) H := by
  have hd := Int.tmod_def H p
  exact (Int.modEq_iff_dvd).mpr ⟨H.tdiv p, by linarith⟩

theorem natModEq_of_intModEq {n a b : Nat}
    (h : (a : Int) ≡ (b : Int) [ZMOD (n : Int)]) : a ≡ b [MOD n] := by
  unfold Int.ModEq at h
  rw [← Int.natCast_mod, ← Int.natCast_mod] at h
  exact_mod_cast h

theorem intModEq_of_natModEq {n a b : Nat} (h : a ≡ b [MOD n]) :
    (a : Int) ≡ (b : Int) [ZMOD (n : Int)] := by
  unfold Nat.ModEq at h
  show (a : Int) % n = (b : Int) % n
  rw [← Int.natCast_mod, ← Int.natCast_mod]
  exact_mod_cast h

/-- Per-prime cancellation: if `e * D ≡ 1 (mod p - 1)` then raising to
`e` and then to `D` is the identity modulo the odd prime `p`, with no
coprimality assumption on the base. -/
theorem pow_dec_prime (p : Nat) (hp : p.Prime) (hp2 : 2 < p) (e D m : Nat)
    (hED : e * D % (p - 1) = 1) : (m ^ e) ^ D ≡ m [MOD p] := by
  haveI : Fact p.Prime := ⟨hp⟩
  have hpm : 2 ≤ p - 1 := by omega
  obtain ⟨t, ht⟩ : ∃ t, e * D = 1 + (p - 1) * t := by
    refine ⟨e * D / (p - 1), ?_⟩
    have := Nat.div_add_mod (e * D) (p - 1)
    omega
  rw [← pow_mul]
  apply (ZMod.natCast_eq_natCast_iff _ _ _).mp
  push_cast
  obtain ⟨x, hx⟩ : ∃ x : ZMod p, (m : ZMod p) = x := ⟨_, rfl⟩
  rw [hx]
  by_cases h0 : x = 0
  · subst h0
    rw [zero_pow (by omega : e * D ≠ 0)]
  · rw [ht, pow_add, pow_one, pow_mul, ZMod.pow_card_sub_one_eq_one h0, one_pow,
      mul_one]

/-- If `e * d ≡ 1 (mod phi)` and `pm1` divides `phi`, then any exponent
congruent to `d` modulo `pm1` is a unit inverse of `e` modulo `pm1`. -/
theorem exp_unit (e d phi pm1 D : Nat) (hdvd : pm1 ∣ phi) (h2 : 2 ≤ pm1)
    (hed : e * d % phi = 1) (hD : D % pm1 = d % pm1) :
    e * D % pm1 = 1 := by
  have h1p : 1 % phi = 1 := by
    rcases Nat.eq_zero_or_pos phi with h | h
    · rw [h]
    · have hphi1 : phi ≠ 1 := by
        intro hc
        rw [hc] at hed
        omega
      exact Nat.mod_eq_of_lt (by omega)
  have hmod1 : e * d ≡ 1 [MOD phi] := by
    unfold Nat.ModEq
    rw [hed, h1p]
  have hmodp : e * d ≡ 1 [MOD pm1] := Nat.ModEq.of_dvd hdvd hmod1
  have hDd : D ≡ d [MOD pm1] := hD
  have hfin : e * D ≡ 1 [MOD pm1] := (Nat.ModEq.mul_left e hDd).trans hmodp
  unfold Nat.ModEq at hfin
  rw [hfin, Nat.mod_eq_of_lt (by omega)]

theorem eq_of_modEq_pq (p q x y : Nat) (hco : Nat.Coprime p q)
    (hx : x < p * q) (hy : y < p * q) (h1 : x ≡ y [MOD p]) (h2 : x ≡ y [MOD q]) :
    x = y := by
  have h := (Nat.modEq_and_modEq_iff_modEq_mul hco).mp ⟨h1, h2⟩
  unfold Nat.ModEq at h
  rw [Nat.mod_eq_of_lt hx, Nat.mod_eq_of_lt hy] at h
  exact h

/-- Correctness of the CRT recombination used by the CRT decryption
paths. -/
theorem crtRecombine_spec (p q mp mq qinv x : Nat) (hp : 0 < p) (hq : 0 < q)
    (hco : Nat.Coprime p q) (hqinv : q * qinv % p = 1)
    (hmp : mp < p) (hmq : mq < q) (hx : x < p * q)
    (hmpx : mp ≡ x [MOD p]) (hmqx : mq ≡ x [MOD q]) :
    crtRecombine mp mq qinv p q = x := by
  have hp2 : 2 ≤ p := by
    by_contra hcon
    have hp1 : p = 1 := by omega
    rw [hp1] at hqinv
    omega
  obtain ⟨H, hH⟩ : ∃ t : Int, ((mp : Int) - (mq : Int)) * (qinv : Int) = t := ⟨_, rfl⟩
  have hres : crtRecombine mp mq qinv p q =
      mq + (if H.tmod p < 0 then H.tmod p + (p : Int) else H.tmod p).toNat * q := by
    unfold crtRecombine
    rw [hH]
  obtain ⟨h, hhdef⟩ : ∃ t : Int, (if H.tmod p < 0 then H.tmod p + (p : Int) else H.tmod p) = t :=
    ⟨_, rfl⟩
  rw [hhdef] at hres
  have hpPos : (0 : Int) < (p : Int) := by exact_mod_cast hp
  have hup : H.tmod p < (p : Int) := Int.tmod_lt_of_pos H hpPos
  have hlow : -(p : Int) < H.tmod p := tmod_gt_neg H hpPos
  have hrange : 0 ≤ h ∧ h < (p : Int) := by
    rw [← hhdef]
    by_cases hneg : H.tmod p < 0
    · rw [if_pos hneg]
      omega
    · rw [if_neg hneg]
      omega
  have hcong : Int.ModEq (p : Int) h H := by
    rw [← hhdef]
    by_cases hneg : H.tmod p < 0
    · rw [if_pos hneg]
      have h1 : Int.ModEq (p : Int) (H.tmod p + p) (H.tmod p) :=
        (Int.modEq_iff_dvd).mpr ⟨-1, by ring⟩
      exact h1.trans (tmod_modEq H p)
    · rw [if_neg hneg]
      exact tmod_modEq H p
  have hTN : (h.toNat : Int) = h := Int.toNat_of_nonneg hrange.1
  -- the recombined value
  have hzq : (mq + h.toNat * q) ≡ x [MOD q] := by
    have h1 : (mq + h.toNat * q) % q = mq % q := Nat.add_mul_mod_self_right mq h.toNat q
    unfold Nat.ModEq
    rw [h1]
    exact hmqx
  have hzp : (mq + h.toNat * q) ≡ x [MOD p] := by
    apply natModEq_of_intModEq
    have hcast : ((mq + h.toNat * q : Nat) : Int) = (mq : Int) + h * q := by
      push_cast
      rw [hTN]
    rw [hcast]
    have hqinvI : Int.ModEq (p : Int) ((q : Int) * qinv) 1 := by
      have := intModEq_of_natModEq (n := p) (a := q * qinv) (b := 1) (by
        unfold Nat.ModEq
        rw [hqinv, Nat.mod_eq_of_lt (by omega)])
      exact_mod_cast this
    have step1 : Int.ModEq (p : Int) ((mq : Int) + h * q) ((mq : Int) + H * q) :=
      Int.ModEq.add_left _ (Int.ModEq.mul_right _ hcong)
    have step2 : Int.ModEq (p : Int) ((mq : Int) + H * q) (mp : Int) := by
      rw [← hH]
      have h1 : ((mq : Int) + ((mp : Int) - mq) * qinv * q) =
          (mq : Int) + ((mp : Int) - mq) * (q * qinv) := by ring
      rw [h1]
      have h2 : Int.ModEq (p : Int) ((mq : Int) + ((mp : Int) - mq) * (q * qinv))
          ((mq : Int) + ((mp : Int) - mq) * 1) :=
        Int.ModEq.add_left _ (Int.ModEq.mul_left _ hqinvI)
      have h3 : ((mq : Int) + ((mp : Int) - mq) * 1) = (mp : Int) := by ring
      rw [h3] at h2
      exact h2
    have step3 : Int.ModEq (p : Int) (mp : Int) (x : Int) := intModEq_of_natModEq hmpx
    exact (step1.trans step2).trans step3
  have hzlt : mq + h.toNat * q < p * q := by
    have hhn : h.toNat < p := by
      have := hrange.2
      omega
    calc mq + h.toNat * q < q + h.toNat * q := by omega
      _ = (h.toNat + 1) * q := by ring
      _ ≤ p * q := Nat.mul_le_mul_right _ (by omega)
  rw [hres]
  exact eq_of_modEq_pq p q _ x hco hzlt hx hzp hzq

theorem key_n_one_lt (key : PrivateKey) (hv : ValidPrivateKey key) : 1 < key.n := by
  rw [hv.nEq]
  calc 1 < 2 * 2 := by norm_num
    _ ≤ key.p * key.q := Nat.mul_le_mul hv.pPrime.two_le hv.qPrime.two_le

theorem key_exp_unit_naive_p (key : PrivateKey) (hv : ValidPrivateKey key)
    (r : Nat) : key.e * (key.d + r * key.phi) % (key.p - 1) = 1 := by
  apply exp_unit key.e key.d key.phi (key.p - 1) _ ⟨key.q - 1, hv.phiEq⟩
    (by have := hv.pBig; omega) hv.ed
  have h : r * key.phi = r * (key.q - 1) * (key.p - 1) := by
    rw [hv.phiEq]
    ring
  rw [h, Nat.add_mul_mod_self_right]

theorem key_exp_unit_naive_q (key : PrivateKey) (hv : ValidPrivateKey key)
    (r : Nat) : key.e * (key.d + r * key.phi) % (key.q - 1) = 1 := by
  apply exp_unit key.e key.d key.phi (key.q - 1) _ ⟨key.p - 1, by rw [hv.phiEq]; ring⟩
    (by have := hv.qBig; omega) hv.ed
  have h : r * key.phi = r * (key.p - 1) * (key.q - 1) := by
    rw [hv.phiEq]
    ring
  rw [h, Nat.add_mul_mod_self_right]

theorem key_exp_unit_crt_p (key : PrivateKey) (hv : ValidPrivateKey key)
    (rp : Nat) : key.e * (key.dp + rp * (key.p - 1)) % (key.p - 1) = 1 := by
  apply exp_unit key.e key.d key.phi (key.p - 1) _ ⟨key.q - 1, hv.phiEq⟩
    (by have := hv.pBig; omega) hv.ed
  rw [Nat.add_mul_mod_self_right, hv.dpEq, Nat.mod_mod_of_dvd _ (dvd_refl _)]

theorem key_exp_unit_crt_q (key : PrivateKey) (hv : ValidPrivateKey key)
    (rq : Nat) : key.e * (key.dq + rq * (key.q - 1)) % (key.q - 1) = 1 := by
  apply exp_unit key.e key.d key.phi (key.q - 1) _ ⟨key.p - 1, by rw [hv.phiEq]; ring⟩
    (by have := hv.qBig; omega) hv.ed
  rw [Nat.add_mul_mod_self_right, hv.dqEq, Nat.mod_mod_of_dvd _ (dvd_refl _)]

/-- The plain (or exponent-blinded) private operation undoes the public
operation, for any plaintext integer below the modulus. -/
theorem privOp_roundtrip (key : PrivateKey) (hv : ValidPrivateKey key)
    (m a D : Nat) (hm : m < key.n)
    (hDp : a * D % (key.p - 1) = 1) (hDq : a * D % (key.q - 1) = 1) :
    modPow (modPow m a key.n) D key.n = m := by
  have hn1 : 1 < key.n := key_n_one_lt key hv
  rw [modPow_eq _ _ _ hn1, modPow_eq _ _ _ hn1]
  have hstep : (m ^ a % key.n) ^ D ≡ (m ^ a) ^ D [MOD key.n] :=
    Nat.ModEq.pow _ (Nat.mod_modEq _ _)
  have hp : (m ^ a) ^ D ≡ m [MOD key.p] :=
    pow_dec_prime key.p hv.pPrime hv.pBig a D m hDp
  have hq : (m ^ a) ^ D ≡ m [MOD key.q] :=
    pow_dec_prime key.q hv.qPrime hv.qBig a D m hDq
  have hco : Nat.Coprime key.p key.q :=
    (Nat.coprime_primes hv.pPrime hv.qPrime).mpr hv.pq
  have hn : (m ^ a) ^ D ≡ m [MOD key.n] := by
    rw [hv.nEq]
    exact (Nat.modEq_and_modEq_iff_modEq_mul hco).mp ⟨hp, hq⟩
  calc (m ^ a % key.n) ^ D % key.n
      = (m ^ a) ^ D % key.n := hstep
    _ = m % key.n := hn
    _ = m := Nat.mod_eq_of_lt hm

/-- The CRT private operation (with arbitrary per-prime exponents that
invert `e` modulo `p - 1` and `q - 1`) undoes the public operation. -/
theorem privOpCRT_roundtrip (key : PrivateKey) (hv : ValidPrivateKey key)
    (m Dp Dq : Nat) (hm : m < key.n)
    (hDp : key.e * Dp % (key.p - 1) = 1) (hDq : key.e * Dq % (key.q - 1) = 1) :
    crtRecombine (modPow (modPow m key.e key.n) Dp key.p)
      (modPow (modPow m key.e key.n) Dq key.q) key.qinv key.p key.q = m := by
  have hn1 : 1 < key.n := key_n_one_lt key hv
  have hp1 : 1 < key.p := hv.pPrime.one_lt
  have hq1 : 1 < key.q := hv.qPrime.one_lt
  have hco : Nat.Coprime key.p key.q :=
    (Nat.coprime_primes hv.pPrime hv.qPrime).mpr hv.pq
  have hcp : modPow m key.e key.n ≡ m ^ key.e [MOD key.p] := by
    have h1 : modPow m key.e key.n ≡ m ^ key.e [MOD key.n] := by
      rw [modPow_eq _ _ _ hn1]
      exact Nat.mod_modEq _ _
    exact Nat.ModEq.of_dvd (by rw [hv.nEq]; exact dvd_mul_right _ _) h1
  have hcq : modPow m key.e key.n ≡ m ^ key.e [MOD key.q] := by
    have h1 : modPow m key.e key.n ≡ m ^ key.e [MOD key.n] := by
      rw [modPow_eq _ _ _ hn1]
      exact Nat.mod_modEq _ _
    exact Nat.ModEq.of_dvd (by rw [hv.nEq]; exact dvd_mul_left _ _) h1
  apply crtRecombine_spec key.p key.q _ _ key.qinv m (by omega) (by omega) hco
    hv.qinvEq
  · rw [modPow_eq _ _ _ hp1]
    exact Nat.mod_lt _ (by omega)
  · rw [modPow_eq _ _ _ hq1]
    exact Nat.mod_lt _ (by omega)
  · rw [← hv.nEq]
    exact hm
  · rw [modPow_eq _ _ _ hp1]
    calc (modPow m key.e key.n) ^ Dp % key.p
        ≡ (modPow m key.e key.n) ^ Dp [MOD key.p] := Nat.mod_modEq _ _
      _ ≡ (m ^ key.e) ^ Dp [MOD key.p] := Nat.ModEq.pow _ hcp
      _ ≡ m [MOD key.p] := pow_dec_prime key.p hv.pPrime hv.pBig key.e Dp m hDp
  · rw [modPow_eq _ _ _ hq1]
    calc (modPow m key.e key.n) ^ Dq % key.q
        ≡ (modPow m key.e key.n) ^ Dq [MOD key.q] := Nat.mod_modEq _ _
      _ ≡ (m ^ key.e) ^ Dq [MOD key.q] := Nat.ModEq.pow _ hcq
      _ ≡ m [MOD key.q] := pow_dec_prime key.q hv.qPrime hv.qBig key.e Dq m hDq

theorem stripPS_replicate : ∀ (j : Nat) (m : List Nat),
    stripPS (List.replicate j 0 ++ 1 :: m) = some m := by
  intro j
  induction j with
  | zero => intro m; rfl
  | succ jj ih =>
    intro m
    rw [List.replicate_succ, List.cons_append]
    show stripPS (List.replicate jj 0 ++ 1 :: m) = some m
    exact ih m

/-- On a successful OAEP encoding the block has length `k`, all its
bytes are in range, and `OAEPDecode` recovers the message exactly. -/
theorem OAEPEncode_decode (message label seed : List Nat) (k : Nat)
    (hseed : seed.length = 32) (hseedlt : ∀ b ∈ seed, b < 256)
    (hmsg : ∀ b ∈ message, b < 256) (hlabel : ∀ c ∈ label, c ≤ 255)
    (EM : List Nat) (hEM : OAEPEncode message label k seed = some EM) :
    EM.length = k ∧ (∀ b ∈ EM, b < 256) ∧ EM.head? = some 0 ∧
      OAEPDecode EM label = some message := by
  by_cases hk : k < message.length + 2 * 32 + 2
  · rw [show OAEPEncode message label k seed = none by
      unfold OAEPEncode; rw [if_pos hk]] at hEM
    exact absurd hEM (by simp)
  have hsome : OAEPEncode message label k seed =
      some (0 :: xorBytes seed (MGF1 (xorBytes
          (hexToBytes (bytesToHex (sha256DigestBytes label)) ++
            List.replicate (k - message.length - 2 * 32 - 2) 0 ++ 1 :: message)
          (MGF1 seed (k - 32 - 1))) 32) ++ xorBytes
          (hexToBytes (bytesToHex (sha256DigestBytes label)) ++
            List.replicate (k - message.length - 2 * 32 - 2) 0 ++ 1 :: message)
          (MGF1 seed (k - 32 - 1))) := by
    unfold OAEPEncode
    rw [if_neg hk, sha256_eq_some label hlabel]
  rw [hsome] at hEM
  have hEMval := Option.some_injective _ hEM
  obtain ⟨lHash, hlHash⟩ : ∃ l, hexToBytes (bytesToHex (sha256DigestBytes label)) = l :=
    ⟨_, rfl⟩
  have hlHlen : lHash.length = 32 := by
    rw [← hlHash, hexToBytes_bytesToHex _ (sha256DigestBytes_lt label)]
    exact sha256DigestBytes_length label
  have hlHlt : ∀ b ∈ lHash, b < 256 := by
    rw [← hlHash, hexToBytes_bytesToHex _ (sha256DigestBytes_lt label)]
    exact sha256DigestBytes_lt label
  rw [hlHash] at hEMval
  obtain ⟨psl, hpsl⟩ : ∃ j, k - message.length - 2 * 32 - 2 = j := ⟨_, rfl⟩
  rw [hpsl] at hEMval
  obtain ⟨DB, hDB⟩ : ∃ l, lHash ++ List.replicate psl 0 ++ 1 :: message = l := ⟨_, rfl⟩
  have hDBlen : DB.length = k - 32 - 1 := by
    rw [← hDB, List.length_append, List.length_append, hlHlen, List.length_replicate,
      List.length_cons]
    omega
  have hDBlt : ∀ b ∈ DB, b < 256 := by
    rw [← hDB]
    intro b hb
    rcases List.mem_append.mp hb with h | h
    · rcases List.mem_append.mp h with h2 | h2
      · exact hlHlt b h2
      · rw [List.eq_of_mem_replicate h2]; norm_num
    · rcases List.mem_cons.mp h with h2 | h2
      · omega
      · exact hmsg b h2
  rw [hDB] at hEMval
  obtain ⟨dbMask, hdbMask⟩ : ∃ l, MGF1 seed (k - 32 - 1) = l := ⟨_, rfl⟩
  have hdbMlen : dbMask.length = k - 32 - 1 := by
    rw [← hdbMask]
    exact MGF1_length seed _ hseedlt
  rw [hdbMask] at hEMval
  obtain ⟨maskedDB, hmDB⟩ : ∃ l, xorBytes DB dbMask = l := ⟨_, rfl⟩
  have hmDBlen : maskedDB.length = k - 32 - 1 := by
    rw [← hmDB, xorBytes_length, hDBlen, hdbMlen]
    omega
  have hmDBlt : ∀ b ∈ maskedDB, b < 256 := by
    rw [← hmDB]
    exact xorBytes_lt _ _ hDBlt (by rw [← hdbMask]; exact MGF1_lt _ _)
  rw [hmDB] at hEMval
  obtain ⟨seedMask, hsMask⟩ : ∃ l, MGF1 maskedDB 32 = l := ⟨_, rfl⟩
  have hsMlen : seedMask.length = 32 := by
    rw [← hsMask]
    exact MGF1_length _ _ hmDBlt
  rw [hsMask] at hEMval
  obtain ⟨maskedSeed, hmS⟩ : ∃ l, xorBytes seed seedMask = l := ⟨_, rfl⟩
  have hmSlen : maskedSeed.length = 32 := by
    rw [← hmS, xorBytes_length, hseed, hsMlen]
    omega
  have hmSlt : ∀ b ∈ maskedSeed, b < 256 := by
    rw [← hmS]
    exact xorBytes_lt _ _ hseedlt (by rw [← hsMask]; exact MGF1_lt _ _)
  rw [hmS] at hEMval
  subst hEMval
  refine ⟨?_, ?_, rfl, ?_⟩
  · have h1 := hmSlen
    have h2 := hmDBlen
    simp only [List.length_cons, List.length_append]
    omega
  · intro b hb
    rcases List.mem_cons.mp hb with h | h
    · omega
    · rcases List.mem_append.mp h with h2 | h2
      · exact hmSlt b h2
      · exact hmDBlt b h2
  · show OAEPDecode (0 :: (maskedSeed ++ maskedDB)) label = some message
    have hsh := sha256_eq_some label hlabel
    simp only [OAEPDecode, hsh]
    rw [if_neg (by simp)]
    rw [List.take_left' hmSlen, List.drop_left' hmSlen]
    rw [hsMask, ← hmS, xorBytes_cancel seed seedMask (by rw [hseed, hsMlen])]
    rw [hmDBlen, hdbMask, ← hmDB, xorBytes_cancel DB dbMask (by rw [hDBlen, hdbMlen])]
    rw [hlHash, ← hDB, List.append_assoc, List.take_left' hlHlen]
    rw [if_neg (by simp)]
    rw [List.drop_left' hlHlen]
    exact stripPS_replicate psl message

theorem utf8EncodeChar_length_pos (c : Nat) : 1 ≤ (utf8EncodeChar c).length := by
  unfold utf8EncodeChar
  split_ifs <;> simp

theorem utf8EncodeChar_lt (c : Nat) (hc : ScalarValue c) :
    ∀ b ∈ utf8EncodeChar c, b < 256 := by
  have hc' : c < 0x110000 := by rcases hc with h | h <;> omega
  unfold utf8EncodeChar
  split_ifs with h1 h2 h3 <;> intro b hb <;> simp only [List.mem_cons,
    List.mem_singleton, List.not_mem_nil, or_false] at hb
  · omega
  · rcases hb with h | h <;> omega
  · rcases hb with h | h | h <;> omega
  · rcases hb with h | h | h | h <;> omega

theorem utf8Encode_lt (s : List Nat) (hs : ∀ c ∈ s, ScalarValue c) :
    ∀ b ∈ utf8Encode s, b < 256 := by
  intro b hb
  rw [utf8Encode, List.mem_flatten] at hb
  obtain ⟨l, hl, hbl⟩ := hb
  rw [List.mem_map] at hl
  obtain ⟨c, hcs, hcl⟩ := hl
  subst hcl
  exact utf8EncodeChar_lt c (hs c hcs) b hbl

theorem utf8Encode_length_ge (s : List Nat) : s.length ≤ (utf8Encode s).length := by
  induction s with
  | nil => simp [utf8Encode]
  | cons c t ih =>
    have h : utf8Encode (c :: t) = utf8EncodeChar c ++ utf8Encode t := by
      simp [utf8Encode]
    rw [h, List.length_append, List.length_cons]
    have := utf8EncodeChar_length_pos c
    omega

/-- The decoder consumes one unit of fuel and one encoded character. -/
theorem utf8DecodeAux_cons (c : Nat) (hc : ScalarValue c) (fuel : Nat)
    (rest : List Nat) :
    utf8DecodeAux (fuel + 1) (utf8EncodeChar c ++ rest) =
      (utf8DecodeAux fuel rest).map (c :: ·) := by
  have hc' : c < 0x110000 := by rcases hc with h | h <;> omega
  have hcsur : ¬(0xD800 ≤ c ∧ c < 0xE000) := by rcases hc with h | h <;> omega
  unfold utf8EncodeChar
  by_cases h1 : c < 0x80
  · rw [if_pos h1]
    show utf8DecodeAux (fuel + 1) (c :: rest) = _
    simp only [utf8DecodeAux]
    rw [if_pos h1]
  · rw [if_neg h1]
    by_cases h2 : c < 0x800
    · rw [if_pos h2]
      show utf8DecodeAux (fuel + 1) ((0xC0 + c / 64) :: (0x80 + c % 64) :: rest) = _
      simp only [utf8DecodeAux]
      rw [if_neg (by omega), if_neg (by omega), if_pos (by omega),
        if_pos (by omega), if_pos (by omega)]
      have he : (0xC0 + c / 64 - 0xC0) * 64 + (0x80 + c % 64 - 0x80) = c := by omega
      rw [he]
    · rw [if_neg h2]
      by_cases h3 : c < 0x10000
      · rw [if_pos h3]
        show utf8DecodeAux (fuel + 1)
          ((0xE0 + c / 4096) :: (0x80 + c / 64 % 64) :: (0x80 + c % 64) :: rest) = _
        simp only [utf8DecodeAux]
        rw [if_neg (by omega), if_neg (by omega), if_neg (by omega),
          if_pos (by omega), if_pos (by omega)]
        have he : ((0xE0 + c / 4096 - 0xE0) * 64 + (0x80 + c / 64 % 64 - 0x80)) * 64 +
            (0x80 + c % 64 - 0x80) = c := by omega
        rw [he, if_pos (by omega)]
      · rw [if_neg h3]
        show utf8DecodeAux (fuel + 1)
          ((0xF0 + c / 262144) :: (0x80 + c / 4096 % 64) :: (0x80 + c / 64 % 64) ::
            (0x80 + c % 64) :: rest) = _
        simp only [utf8DecodeAux]
        rw [if_neg (by omega), if_neg (by omega), if_neg (by omega),
          if_neg (by omega), if_pos (by omega), if_pos (by omega)]
        have he : (((0xF0 + c / 262144 - 0xF0) * 64 + (0x80 + c / 4096 % 64 - 0x80)) * 64 +
            (0x80 + c / 64 % 64 - 0x80)) * 64 + (0x80 + c % 64 - 0x80) = c := by omega
        rw [he, if_pos (by omega)]

theorem utf8DecodeAux_encode : ∀ (s : List Nat), (∀ c ∈ s, ScalarValue c) →
    ∀ fuel, utf8DecodeAux (s.length + fuel) (utf8Encode s) = some s := by
  intro s
  induction s with
  | nil =>
    intro _ fuel
    cases fuel <;> rfl
  | cons c t ih =>
    intro hs fuel
    have hc : ScalarValue c := hs c (List.mem_cons_self _ _)
    have henc : utf8Encode (c :: t) = utf8EncodeChar c ++ utf8Encode t := by
      simp [utf8Encode]
    rw [henc, show (c :: t).length + fuel = t.length + fuel + 1 by
      rw [List.length_cons]; ring]
    rw [utf8DecodeAux_cons c hc (t.length + fuel) (utf8Encode t)]
    rw [ih (fun x hx => hs x (List.mem_cons_of_mem _ hx)) fuel]
    rfl

/-- `buffer.toString("utf8")` inverts `Buffer.from` on well-formed
strings, i.e. on lists of Unicode scalar values. -/
theorem utf8Decode_utf8Encode (s : List Nat) (hs : ∀ c ∈ s, ScalarValue c) :
    utf8Decode (utf8Encode s) = some s := by
  unfold utf8Decode
  have hge := utf8Encode_length_ge s
  rw [show (utf8Encode s).length + 1 = s.length + ((utf8Encode s).length + 1 - s.length)
    by omega]
  exact utf8DecodeAux_encode s hs _

theorem modPow_lt (a e p : Nat) (hp : 1 < p) : modPow a e p < p := by
  rw [modPow_eq a e p hp]
  exact Nat.mod_lt _ (by omega)

/-- Bridge from the source's `modPow` to powers in `ZMod p`. -/
theorem modPow_zmod (a e p : Nat) (hp : 1 < p) :
    ((modPow a e p : Nat) : ZMod p) = ((a : Nat) : ZMod p) ^ e := by
  rw [modPow_eq a e p hp, ZMod.natCast_mod, Nat.cast_pow]

theorem zmod_natCast_ne_one (p v : Nat) (hp : 1 < p) (hv : v < p) (hne : v ≠ 1) :
    ((v : Nat) : ZMod p) ≠ 1 := by
  haveI : NeZero p := ⟨by omega⟩
  intro h
  rw [show (1 : ZMod p) = ((1 : Nat) : ZMod p) by rw [Nat.cast_one]] at h
  have hval := congrArg ZMod.val h
  rw [ZMod.val_natCast_of_lt hv, ZMod.val_natCast_of_lt hp] at hval
  exact hne hval

theorem pWit_pos : 1 < pWit := by
  have ht : 0 < 673 * 2 ^ 520 := by positivity
  unfold pWit
  omega

theorem pWit_sub_one : pWit - 1 = 673 * 2 ^ 520 := by
  unfold pWit
  omega

set_option maxRecDepth 100000

/-- The witness prime `673 * 2^520 + 1` is prime, by a Lucas certificate
with base 3 (`p - 1 = 673 * 2^520` has prime factors 2 and 673 only). -/
theorem pWit_prime : Nat.Prime pWit := by
  have hp1 := pWit_pos
  apply lucas_primality pWit (((3 : Nat) : ZMod pWit))
  · rw [← modPow_zmod 3 _ pWit hp1,
      show modPow 3 (pWit - 1) pWit = 1 from by rfl, Nat.cast_one]
  · intro q hq hdvd
    rw [pWit_sub_one] at hdvd
    have hq2 : q = 673 ∨ q = 2 := by
      rcases (Nat.Prime.dvd_mul hq).mp hdvd with h | h
      · left
        exact (Nat.prime_dvd_prime_iff_eq hq (by norm_num)).mp h
      · right
        exact (Nat.prime_dvd_prime_iff_eq hq (by norm_num)).mp
          (hq.dvd_of_dvd_pow h)
    rcases hq2 with h | h <;> subst h
    · rw [← modPow_zmod 3 _ pWit hp1]
      exact zmod_natCast_ne_one pWit _ hp1 (modPow_lt _ _ _ hp1) (by decide)
    · rw [← modPow_zmod 3 _ pWit hp1]
      exact zmod_natCast_ne_one pWit _ hp1 (modPow_lt _ _ _ hp1) (by decide)

/-- The large witness key `keyWit` satisfies the generated-key
invariants. -/
theorem keyWit_valid : ValidPrivateKey keyWit :=
  ⟨pWit_prime, by decide, by decide, by decide, by decide, rfl, rfl, by rfl,
    rfl, rfl, by decide, by rfl⟩

/-- The modulus dominates `256^(k-1)` for its byte length `k`: an
integer with a leading zero byte in a `k`-byte rendering is below `n`. -/
theorem pow_byteLen_pred_le (n : Nat) (hn : 0 < n) :
    256 ^ (byteLenOfModulus n - 1) ≤ n := by
  obtain ⟨h1, h2, h3⟩ := bitLenJS_spec n hn
  have hk : (bitLenJS n + 7) / 8 * 8 ≤ bitLenJS n + 7 := Nat.div_mul_le_self _ _
  have hk1 : 1 ≤ (bitLenJS n + 7) / 8 := by
    rw [Nat.le_div_iff_mul_le (by norm_num)]
    omega
  calc 256 ^ (byteLenOfModulus n - 1)
      = 2 ^ (8 * (byteLenOfModulus n - 1)) := by
        rw [pow_mul]
        norm_num
    _ ≤ 2 ^ (bitLenJS n - 1) := by
        apply Nat.pow_le_pow_right (by norm_num)
        unfold byteLenOfModulus
        omega
    _ ≤ n := h2

theorem key_exp_unit_d_p (key : PrivateKey) (hv : ValidPrivateKey key) :
    key.e * key.d % (key.p - 1) = 1 := by
  have h := key_exp_unit_naive_p key hv 0
  simpa using h

theorem key_exp_unit_d_q (key : PrivateKey) (hv : ValidPrivateKey key) :
    key.e * key.d % (key.q - 1) = 1 := by
  have h := key_exp_unit_naive_q key hv 0
  simpa using h

theorem key_exp_unit_dp (key : PrivateKey) (hv : ValidPrivateKey key) :
    key.e * key.dp % (key.p - 1) = 1 := by
  have h := key_exp_unit_crt_p key hv 0
  simpa using h

theorem key_exp_unit_dq (key : PrivateKey) (hv : ValidPrivateKey key) :
    key.e * key.dq % (key.q - 1) = 1 := by
  have h := key_exp_unit_crt_q key hv 0
  simpa using h

/-! ### C2: OAEP encryption/decryption round trip, all four variants -/

/-- **C2**: for every valid key pair and every message whose UTF-8
encoding fits the OAEP capacity (`|M| ≤ k - 2*hLen - 2`), encryption
with the public key succeeds and each of the four private-operation
variants (naive, blinded, CRT, blinded CRT) decrypts the ciphertext
back to the message, for arbitrary blinding draws. -/
theorem decryptOAEP_roundtrip (key : PrivateKey) (hv : ValidPrivateKey key)
    (message seed : List Nat) (rDraw rpDraw rqDraw : Nat)
    (hseed : seed.length = 32) (hseedlt : ∀ b ∈ seed, b < 256)
    (hsv : ∀ c ∈ message, ScalarValue c)
    (hlen : (utf8Encode message).length + 2 * 32 + 2 ≤ byteLenOfModulus key.n) :
    ∃ c, encryptOAEP message (publicOf key) seed = some c ∧
      decryptOAEP c key = some message ∧
      decryptOAEPBlinding c key rDraw = some message ∧
      decryptOAEPCRT c key = some message ∧
      decryptOAEPBlindingCRT c key rpDraw rqDraw = some message := by
  have hn1 : 1 < key.n := key_n_one_lt key hv
  have hk66 : ¬ byteLenOfModulus key.n <
      (utf8Encode message).length + 2 * 32 + 2 := by omega
  obtain ⟨EM, hEM⟩ : ∃ EM,
      OAEPEncode (utf8Encode message) [] (byteLenOfModulus key.n) seed = some EM := by
    rw [← Option.ne_none_iff_exists']
    intro hnone
    unfold OAEPEncode at hnone
    rw [if_neg hk66, sha256_eq_some [] (by simp)] at hnone
    exact absurd hnone (by simp)
  obtain ⟨hEMlen, hEMlt, hEMhead, hEMdec⟩ :=
    OAEPEncode_decode (utf8Encode message) [] seed (byteLenOfModulus key.n)
      hseed hseedlt (utf8Encode_lt message hsv) (by simp) EM hEM
  obtain ⟨tail, htail⟩ : ∃ t, EM = 0 :: t := by
    cases EM with
    | nil => simp at hEMhead
    | cons b t =>
      rw [List.head?_cons, Option.some_inj] at hEMhead
      exact ⟨t, by rw [hEMhead]⟩
  have hmlt : osToInt EM < key.n := by
    have h1 : osToInt EM = osToInt tail := by
      rw [htail, osToInt_cons, zero_mul, zero_add]
    have h2 : osToInt tail < 256 ^ tail.length := by
      apply osToInt_lt
      intro b hb
      exact hEMlt b (by rw [htail]; exact List.mem_cons_of_mem _ hb)
    have h3 : tail.length = byteLenOfModulus key.n - 1 := by
      rw [htail, List.length_cons] at hEMlen
      omega
    have h4 := pow_byteLen_pred_le key.n (by omega)
    rw [h3] at h2
    rw [h1]
    omega
  have hcval : encryptOAEP message (publicOf key) seed =
      some (modPow (osToInt EM) key.e key.n) := by
    simp only [encryptOAEP, publicOf, hEM]
    rw [if_neg (by omega)]
  have hpad : padLeft (byteLenOfModulus key.n) (natToBytes (osToInt EM)) = EM := by
    rw [← hEMlen]
    exact padLeft_natToBytes_osToInt EM hEMlt (by omega)
  have htl : (OAEPDecode (padLeft (byteLenOfModulus key.n)
      (natToBytes (osToInt EM))) []).bind utf8Decode = some message := by
    rw [hpad, hEMdec]
    exact utf8Decode_utf8Encode message hsv
  refine ⟨modPow (osToInt EM) key.e key.n, hcval, ?_, ?_, ?_, ?_⟩
  · simp only [decryptOAEP]
    rw [privOp_roundtrip key hv _ key.e key.d hmlt (key_exp_unit_d_p key hv)
      (key_exp_unit_d_q key hv)]
    exact htl
  · simp only [decryptOAEPBlinding]
    rw [privOp_roundtrip key hv _ key.e (key.d + (rDraw &&& 0xFFFF) * key.phi) hmlt
      (key_exp_unit_naive_p key hv _) (key_exp_unit_naive_q key hv _)]
    exact htl
  · simp only [decryptOAEPCRT]
    rw [privOpCRT_roundtrip key hv _ key.dp key.dq hmlt
      (key_exp_unit_dp key hv) (key_exp_unit_dq key hv)]
    exact htl
  · simp only [decryptOAEPBlindingCRT]
    rw [privOpCRT_roundtrip key hv _ (key.dp + (if rpDraw = 0 then 1 else rpDraw) * (key.p - 1))
      (key.dq + (if rqDraw = 0 then 1 else rqDraw) * (key.q - 1)) hmlt
      (key_exp_unit_crt_p key hv _) (key_exp_unit_crt_q key hv _)]
    exact htl

theorem padLeft_self (l : List Nat) : padLeft l.length l = l := by
  unfold padLeft
  simp

/-- Re-applying the top-byte mask after unmasking with the same MGF byte
recovers a top byte that the mask leaves unchanged. -/
theorem mask_xor_recover (d m M : Nat) (hd : d &&& M = d) :
    (((d ^^^ m) &&& M) ^^^ m) &&& M = d := by
  rw [Nat.and_xor_distrib_right, Nat.and_assoc, Nat.and_self,
    Nat.and_xor_distrib_right, Nat.xor_cancel_right, hd]

theorem and_mask_lt (b M : Nat) (hb : b < 256) : b &&& M < 256 :=
  lt_of_le_of_lt (Nat.and_le_left) hb

/-- The top-byte mask `0xFF >> unused` is odd for every `unused ≤ 7`, so
it fixes the bytes 0 and 1. -/
theorem top_mask_fixes (d u : Nat) (hu : u ≤ 7) (hd : d = 0 ∨ d = 1) :
    d &&& 255 / 2 ^ u = d := by
  rcases hd with h | h <;> subst h
  · exact Nat.zero_and _
  · interval_cases u <;> decide

/-- Witness for C2: the 531-bit key `keyWit`, message `"a"` (code 97),
an all-sevens OAEP seed, and nonzero blinding draws. -/
theorem decryptOAEP_roundtrip_witness :
    ∃ c, encryptOAEP [97] (publicOf keyWit) (List.replicate 32 7) = some c ∧
      decryptOAEP c keyWit = some [97] ∧
      decryptOAEPBlinding c keyWit 5 = some [97] ∧
      decryptOAEPCRT c keyWit = some [97] ∧
      decryptOAEPBlindingCRT c keyWit 6 11 = some [97] :=
  decryptOAEP_roundtrip keyWit keyWit_valid [97] (List.replicate 32 7) 5 6 11
    (by rfl) (by decide)
    (by intro c hc; rw [List.mem_singleton] at hc; subst hc; unfold ScalarValue; left; norm_num)
    (by rfl)

/-! ### C3: PSS sign/verify round trip -/

/-- A successful EMSA-PSS encoding has length `emLen`, in-range bytes,
and passes EMSA-PSS verification against the same message, provided the
unused-bit count is at most 7 (as it is for the `emLen = ceil(emBits/8)`
of the callers). -/
theorem emsaPSSencode_verify (message salt : List Nat) (emLen emBits : Nat)
    (hmsg : ∀ c ∈ message, c ≤ 255) (hsalt : salt.length = 32)
    (hsaltlt : ∀ b ∈ salt, b < 256) (hu7 : 8 * emLen ≤ emBits + 7)
    (EM : List Nat) (hEM : emsaPSSencode (sha256 message) emLen emBits salt = some EM) :
    32 + 32 + 2 ≤ emLen ∧ EM.length = emLen ∧ (∀ b ∈ EM, b < 256) ∧
      emsaPSSverify (sha256 message) EM emBits = some true := by
  by_cases h66 : emLen < 32 + 32 + 2
  · rw [show emsaPSSencode (sha256 message) emLen emBits salt = none by
      unfold emsaPSSencode; rw [if_pos h66]] at hEM
    exact absurd hEM (by simp)
  have hmh := sha256_eq_some message hmsg
  have hmHlt : ∀ b ∈ hexToBytes (bytesToHex (sha256DigestBytes message)), b < 256 := by
    rw [hexToBytes_bytesToHex _ (sha256DigestBytes_lt message)]
    exact sha256DigestBytes_lt message
  have hH := sha256_eq_some
    (List.replicate 8 0 ++ hexToBytes (bytesToHex (sha256DigestBytes message)) ++ salt)
    (by
      intro c hc
      rcases List.mem_append.mp hc with h | h
      · rcases List.mem_append.mp h with h2 | h2
        · rw [List.eq_of_mem_replicate h2]; norm_num
        · have := hmHlt c h2; omega
      · have := hsaltlt c h; omega)
  simp only [emsaPSSencode, hmh, hH] at hEM
  rw [if_neg h66] at hEM
  obtain ⟨H, hHdef⟩ : ∃ l, hexToBytes (bytesToHex (sha256DigestBytes
      (List.replicate 8 0 ++ hexToBytes (bytesToHex (sha256DigestBytes message)) ++
        salt))) = l := ⟨_, rfl⟩
  have hHlen : H.length = 32 := by
    rw [← hHdef, hexToBytes_bytesToHex _ (sha256DigestBytes_lt _)]
    exact sha256DigestBytes_length _
  have hHlt : ∀ b ∈ H, b < 256 := by
    rw [← hHdef, hexToBytes_bytesToHex _ (sha256DigestBytes_lt _)]
    exact sha256DigestBytes_lt _
  rw [hHdef] at hEM
  obtain ⟨psl, hpsl⟩ : ∃ j, emLen - 32 - 32 - 2 = j := ⟨_, rfl⟩
  rw [hpsl] at hEM
  obtain ⟨DB, hDB⟩ : ∃ l, List.replicate psl 0 ++ 1 :: salt = l := ⟨_, rfl⟩
  have hDBlen : DB.length = emLen - 32 - 1 := by
    rw [← hDB, List.length_append, List.length_replicate, List.length_cons, hsalt]
    omega
  have hDBlt : ∀ b ∈ DB, b < 256 := by
    rw [← hDB]
    intro b hb
    rcases List.mem_append.mp hb with h | h
    · rw [List.eq_of_mem_replicate h]; norm_num
    · rcases List.mem_cons.mp h with h2 | h2
      · omega
      · exact hsaltlt b h2
  have hstrip : stripPS DB = some salt := by
    rw [← hDB]
    exact stripPS_replicate psl salt
  rw [hDB] at hEM
  rw [hDBlen] at hEM
  obtain ⟨mask, hmask⟩ : ∃ l, MGF1 H (emLen - 32 - 1) = l := ⟨_, rfl⟩
  have hmasklen : mask.length = emLen - 32 - 1 := by
    rw [← hmask]
    exact MGF1_length _ _ hHlt
  have hmasklt : ∀ b ∈ mask, b < 256 := by
    rw [← hmask]
    exact MGF1_lt _ _
  rw [hmask] at hEM
  have hmDBlt : ∀ b ∈ xorBytes DB mask, b < 256 := xorBytes_lt _ _ hDBlt hmasklt
  have hH2 : sha256 (List.replicate 8 0 ++
      (hexToBytes (bytesToHex (sha256DigestBytes message)) ++ salt)) =
      some (bytesToHex (sha256DigestBytes (List.replicate 8 0 ++
        (hexToBytes (bytesToHex (sha256DigestBytes message)) ++ salt)))) := by
    rw [← List.append_assoc]
    exact hH
  have hHT2 : (H = hexToBytes (bytesToHex (sha256DigestBytes (List.replicate 8 0 ++
      (hexToBytes (bytesToHex (sha256DigestBytes message)) ++ salt))))) = True :=
    eq_true (by rw [← List.append_assoc]; exact hHdef.symm)
  by_cases hu : 0 < 8 * emLen - emBits
  · rw [if_pos hu] at hEM
    obtain ⟨d0, dr, hDBc, hd01⟩ : ∃ d0 dr, DB = d0 :: dr ∧ (d0 = 0 ∨ d0 = 1) := by
      rcases psl with _ | j
      · refine ⟨1, salt, ?_, Or.inr rfl⟩
        rw [← hDB]
        rfl
      · refine ⟨0, List.replicate j 0 ++ 1 :: salt, ?_, Or.inl rfl⟩
        rw [← hDB, List.replicate_succ, List.cons_append]
    obtain ⟨m0, mr, hmaskc⟩ : ∃ m0 mr, mask = m0 :: mr := by
      cases hM : mask with
      | nil => rw [hM] at hmasklen; simp at hmasklen; omega
      | cons a l => exact ⟨a, l, rfl⟩
    have hdr : dr.length = emLen - 32 - 2 := by
      rw [hDBc, List.length_cons] at hDBlen
      omega
    have hmr : mr.length = emLen - 32 - 2 := by
      rw [hmaskc, List.length_cons] at hmasklen
      omega
    have hxDB : xorBytes DB mask = (d0 ^^^ m0) :: xorBytes dr mr := by
      rw [hDBc, hmaskc]
      rfl
    simp only [hxDB] at hEM
    obtain ⟨T, hT⟩ : ∃ x, (d0 ^^^ m0) &&& 255 / 2 ^ (8 * emLen - emBits) = x := ⟨_, rfl⟩
    rw [hT] at hEM
    have hXlen : (T :: xorBytes dr mr).length = emLen - 32 - 1 := by
      simp only [List.length_cons, xorBytes_length]
      omega
    have hlenEM : ((T :: xorBytes dr mr ++ H) ++ [188]).length = emLen := by
      simp only [List.length_append, List.length_cons, xorBytes_length,
        List.length_nil, hHlen]
      omega
    rw [if_pos hlenEM] at hEM
    have hEMv := Option.some_injective _ hEM
    subst hEMv
    have hEMlen2 : ((T :: xorBytes dr mr) ++ (H ++ [188])).length = emLen := by
      rw [← List.append_assoc]
      exact hlenEM
    refine ⟨by omega, by rw [← List.append_assoc] at hEMlen2; exact hEMlen2, ?_, ?_⟩
    · intro b hb
      simp only [List.append_assoc, List.mem_append, List.mem_cons,
        List.mem_singleton, List.not_mem_nil, or_false] at hb
      rcases hb with h | h | h
      · rcases h with h | h
        · subst h
          rw [← hT]
          apply and_mask_lt
          have := hmDBlt (d0 ^^^ m0) (by rw [hxDB]; exact List.mem_cons_self _ _)
          exact this
        · exact hmDBlt b (by rw [hxDB]; exact List.mem_cons_of_mem _ h)
      · exact hHlt b h
      · omega
    · have hc1 : (emLen < 32 + 2) = False := eq_false (by omega)
      have hlast : ((((T :: xorBytes dr mr) ++ (H ++ [188])).getLast? ≠ some 188))
          = False := by
        apply eq_false
        rw [show (T :: xorBytes dr mr) ++ (H ++ [188]) =
          ((T :: xorBytes dr mr) ++ H) ++ [188] by rw [List.append_assoc]]
        rw [List.getLast?_concat]
        simp
      have htake : ((T :: xorBytes dr mr) ++ (H ++ [188])).take (emLen - 32 - 1) =
          T :: xorBytes dr mr := List.take_left' hXlen
      have hdropEM : ((T :: xorBytes dr mr) ++ (H ++ [188])).drop (emLen - 32 - 1) =
          H ++ [188] := List.drop_left' hXlen
      have htakeH : (H ++ [188]).take 32 = H := List.take_left' hHlen
      have hxor2 : xorBytes (T :: xorBytes dr mr) mask = (T ^^^ m0) :: dr := by
        rw [hmaskc]
        show (T ^^^ m0) :: xorBytes (xorBytes dr mr) mr = _
        rw [xorBytes_cancel dr mr (by omega)]
      have huT : (0 < 8 * emLen - emBits) = True := eq_true hu
      have hrec : (T ^^^ m0) &&& 255 / 2 ^ (8 * emLen - emBits) = d0 := by
        rw [← hT]
        exact mask_xor_recover d0 m0 _ (top_mask_fixes d0 _ (by omega) hd01)
      have hstrip2 : stripPS (d0 :: dr) = some salt := by
        rw [← hDBc]
        exact hstrip
      have hsaltT : (salt.length ≠ 32) = False := eq_false (by rw [hsalt]; simp)
      simp only [emsaPSSverify, hmh, List.append_assoc, hEMlen2, hc1, hlast,
        if_false, htake, hdropEM, htakeH, hXlen, hmask, hxor2, huT, if_true,
        hrec, hstrip2, hsaltT, hH2, hHT2]
  · rw [if_neg hu] at hEM
    have hXlen : (xorBytes DB mask).length = emLen - 32 - 1 := by
      rw [xorBytes_length, hDBlen, hmasklen]
      omega
    have hlenEM : ((xorBytes DB mask ++ H) ++ [188]).length = emLen := by
      simp only [List.length_append, List.length_nil, List.length_cons, hXlen, hHlen]
      omega
    rw [if_pos hlenEM] at hEM
    have hEMv := Option.some_injective _ hEM
    subst hEMv
    have hEMlen2 : (xorBytes DB mask ++ (H ++ [188])).length = emLen := by
      rw [← List.append_assoc]
      exact hlenEM
    refine ⟨by omega, by rw [← List.append_assoc] at hEMlen2; exact hEMlen2, ?_, ?_⟩
    · intro b hb
      simp only [List.append_assoc, List.mem_append, List.mem_cons,
        List.mem_singleton, List.not_mem_nil, or_false] at hb
      rcases hb with h | h | h
      · exact hmDBlt b h
      · exact hHlt b h
      · omega
    · have hc1 : (emLen < 32 + 2) = False := eq_false (by omega)
      have hlast : (((xorBytes DB mask ++ (H ++ [188])).getLast? ≠ some 188))
          = False := by
        apply eq_false
        rw [show xorBytes DB mask ++ (H ++ [188]) =
          (xorBytes DB mask ++ H) ++ [188] by rw [List.append_assoc]]
        rw [List.getLast?_concat]
        simp
      have htake : (xorBytes DB mask ++ (H ++ [188])).take (emLen - 32 - 1) =
          xorBytes DB mask := List.take_left' hXlen
      have hdropEM : (xorBytes DB mask ++ (H ++ [188])).drop (emLen - 32 - 1) =
          H ++ [188] := List.drop_left' hXlen
      have htakeH : (H ++ [188]).take 32 = H := List.take_left' hHlen
      have hxor2 : xorBytes (xorBytes DB mask) mask = DB :=
        xorBytes_cancel DB mask (by omega)
      have huF : (0 < 8 * emLen - emBits) = False := eq_false hu
      have hsaltT : (salt.length ≠ 32) = False := eq_false (by rw [hsalt]; simp)
      simp only [emsaPSSverify, hmh, List.append_assoc, hEMlen2, hc1, hlast,
        if_false, htake, hdropEM, htakeH, hXlen, hmask, hxor2, huF, if_true,
        hstrip, hsaltT, hH2, hHT2]

/-- **C3**: for every valid key pair, every message of byte-range
character codes, and every 32-byte salt draw, a signature produced by
`signPSS` verifies as `true` against the matching public key and the
same message. -/
theorem verifyPSS_signPSS (key : PrivateKey) (hv : ValidPrivateKey key)
    (message salt : List Nat) (hmsg : ∀ c ∈ message, c ≤ 255)
    (hsalt : salt.length = 32) (hsaltlt : ∀ b ∈ salt, b < 256)
    (s : Nat) (hs : signPSS message key salt = some s) :
    verifyPSS s (publicOf key) message = some true := by
  simp only [signPSS] at hs
  cases henc : emsaPSSencode (sha256 message) ((bitLenJS key.n - 1 + 7) / 8)
      (bitLenJS key.n - 1) salt with
  | none =>
    simp only [henc] at hs
    exact absurd hs (by simp)
  | some EM =>
    simp only [henc] at hs
    obtain ⟨h66, hEMlen, hEMlt, hver⟩ := emsaPSSencode_verify message salt
      ((bitLenJS key.n - 1 + 7) / 8) (bitLenJS key.n - 1) hmsg hsalt hsaltlt
      (by have := Nat.div_mul_le_self (bitLenJS key.n - 1 + 7) 8; omega) EM henc
    rw [if_neg (by omega)] at hs
    rw [show padLeft ((bitLenJS key.n - 1 + 7) / 8) EM = EM from by
      rw [← hEMlen]; exact padLeft_self EM] at hs
    by_cases hm : key.n ≤ osToInt EM
    · rw [if_pos hm] at hs
      exact absurd hs (by simp)
    · rw [if_neg hm] at hs
      have hsv := Option.some_injective _ hs
      subst hsv
      have hmv : modPow (modPow (osToInt EM) key.d key.n) key.e key.n = osToInt EM :=
        privOp_roundtrip key hv _ key.d key.e (by omega)
          (by rw [mul_comm]; exact key_exp_unit_d_p key hv)
          (by rw [mul_comm]; exact key_exp_unit_d_q key hv)
      have hbuf : padLeft ((bitLenJS key.n - 1 + 7) / 8) (natToBytes (osToInt EM)) =
          EM := by
        conv_lhs => rw [← hEMlen]
        exact padLeft_natToBytes_osToInt EM hEMlt (by omega)
      have hbuflen : (natToBytes (osToInt EM)).length ≤
          (bitLenJS key.n - 1 + 7) / 8 := by
        have h1 : osToInt EM < 256 ^ EM.length := osToInt_lt EM hEMlt
        rw [hEMlen] at h1
        exact natToBytes_length_le _ _ (by omega) h1
      simp only [verifyPSS, publicOf, hmv]
      rw [if_neg (by omega)]
      simp only [hbuf, hver]

/-- Witness for C3: the 531-bit key `keyWit`, message `"abc"`, all-nines
salt; the signature is the value signPSS returns on these inputs. -/
theorem verifyPSS_signPSS_witness :
    verifyPSS ((signPSS [97, 98, 99] keyWit (List.replicate 32 9)).getD 0)
      (publicOf keyWit) [97, 98, 99] = some true :=
  verifyPSS_signPSS keyWit keyWit_valid [97, 98, 99] (List.replicate 32 9)
    (by decide) (by rfl) (by decide) _ (by rfl)

/-! ### C4: verifyPSS totality -/

/-- Counterexample to C4 as claimed: on the public key `n = 391`
(bit length 9, so `k = 1`), signature 7 and the empty message, the
recovered integer needs 2 bytes, and `verifyPSS` throws the uncaught
`"Encoded message length too long in verification"` error (modelled by
`none`) instead of returning a boolean. -/
theorem verifyPSS_throws_counterexample :
    verifyPSS 7 ⟨391, 3⟩ [] = none := by decide

/-- **C4** (amended): whenever the modulus bit length is not
`1 mod 8` (in particular for every modulus produced by `generateKeys`,
whose bit lengths are even), `verifyPSS` returns a boolean — `false` on
every PSS failure caught inside the `try` — and never throws. -/
theorem verifyPSS_total (signature : Nat) (pub : PublicKey) (message : List Nat)
    (hbits : bitLenJS pub.n % 8 ≠ 1) :
    ∃ b, verifyPSS signature pub message = some b := by
  have hn2 : 1 < pub.n := by
    by_contra h
    have h0 : pub.n = 0 ∨ pub.n = 1 := by omega
    rcases h0 with h0 | h0 <;> rw [h0] at hbits <;> exact hbits (by decide)
  obtain ⟨hlt, hge, h1L⟩ := bitLenJS_spec pub.n (by omega)
  have hL2 : 2 ≤ bitLenJS pub.n := by
    rcases Nat.lt_or_ge (bitLenJS pub.n) 2 with h | h
    · have h1 : bitLenJS pub.n = 1 := by omega
      rw [h1] at hbits
      exact absurd (by norm_num) hbits
    · exact h
  have hm := modPow_lt signature pub.e pub.n hn2
  have hk8 : bitLenJS pub.n ≤ 8 * ((bitLenJS pub.n - 1 + 7) / 8) := by omega
  have hmk : modPow signature pub.e pub.n <
      256 ^ ((bitLenJS pub.n - 1 + 7) / 8) := by
    calc modPow signature pub.e pub.n < pub.n := hm
      _ < 2 ^ bitLenJS pub.n := hlt
      _ ≤ 2 ^ (8 * ((bitLenJS pub.n - 1 + 7) / 8)) :=
          Nat.pow_le_pow_right (by norm_num) hk8
      _ = 256 ^ ((bitLenJS pub.n - 1 + 7) / 8) := by
          rw [pow_mul]
          norm_num
  have hbuf : (natToBytes (modPow signature pub.e pub.n)).length ≤
      (bitLenJS pub.n - 1 + 7) / 8 :=
    natToBytes_length_le _ _ (by omega) hmk
  simp only [verifyPSS]
  rw [if_neg (by omega)]
  cases hres : emsaPSSverify (sha256 message)
      (padLeft ((bitLenJS pub.n - 1 + 7) / 8)
        (natToBytes (modPow signature pub.e pub.n))) (bitLenJS pub.n - 1) with
  | none => exact ⟨false, rfl⟩
  | some b => exact ⟨b, rfl⟩

/-- Witness for the amended C4 on the public key `n = 100` (bit length
7), signature 5, empty message: a boolean comes back. -/
theorem verifyPSS_total_witness :
    ∃ b, verifyPSS 5 ⟨100, 3⟩ [] = some b :=
  verifyPSS_total 5 ⟨100, 3⟩ [] (by decide)

/-! ### C5: the two key decoders and the two value forms -/

/-- Counterexample to C5 as claimed: on the plain decimal string
`"123"`, the `decodeKeyBase64` reviver returns the string unchanged
(no BigInt field), while the `parseWithBigInt` reviver converts it;
the two decoders do not both accept the plain form. -/
theorem decodeKeyBase64_plain_counterexample :
    decodeKeyBase64Revive [49, 50, 51] = .str [49, 50, 51] ∧
    parseWithBigIntRevive [49, 50, 51] = .big 123 := by decide

/-- **C5** (amended): for every nonempty decimal digit string `s`, the
`parseWithBigInt` reviver maps both the tagged form `s ++ "n"` and the
plain form `s` to the big integer with decimal value `s`, while the
`decodeKeyBase64` reviver converts only the tagged form and leaves the
plain form as a string. -/
theorem keyDecoders_value_forms (s : List Nat) (hne : s ≠ [])
    (hdig : ∀ c ∈ s, isDigitCode c = true) :
    parseWithBigIntRevive s = .big (decDigitsToNat s) ∧
    parseWithBigIntRevive (s ++ [110]) = .big (decDigitsToNat s) ∧
    decodeKeyBase64Revive (s ++ [110]) = .big (decDigitsToNat s) ∧
    decodeKeyBase64Revive s = .str s := by
  have hdrop : (s ++ [110]).dropLast = s := by
    rw [List.dropLast_concat]
  have htag : isTaggedBigInt (s ++ [110]) = true := by
    unfold isTaggedBigInt
    rw [List.reverse_append]
    simp only [List.reverse_cons, List.reverse_nil, List.nil_append,
      List.singleton_append]
    rw [Bool.and_eq_true, List.all_eq_true]
    constructor
    · simp [hne]
    · intro c hc
      exact hdig c (List.mem_reverse.mp hc)
  have htagF : isTaggedBigInt s = false := by
    unfold isTaggedBigInt
    split
    · next rest heq =>
      have h110 : 110 ∈ s := by
        rw [← List.mem_reverse, heq]
        exact List.mem_cons_self _ _
      have := hdig 110 h110
      exact absurd this (by decide)
    · rfl
  have hplain : isPlainDigits s = true := by
    unfold isPlainDigits
    rw [Bool.and_eq_true, List.all_eq_true]
    constructor
    · simp [hne]
    · exact hdig
  refine ⟨?_, ?_, ?_, ?_⟩
  · simp [parseWithBigIntRevive, htagF, hplain]
  · simp [parseWithBigIntRevive, htag, hdrop]
  · simp [decodeKeyBase64Revive, htag, hdrop]
  · simp [decodeKeyBase64Revive, htagF]

/-- Witness for the amended C5 at the digit string `"123"`. -/
theorem keyDecoders_value_forms_witness :
    parseWithBigIntRevive [49, 50, 51] = .big (decDigitsToNat [49, 50, 51]) ∧
    parseWithBigIntRevive ([49, 50, 51] ++ [110]) =
      .big (decDigitsToNat [49, 50, 51]) ∧
    decodeKeyBase64Revive ([49, 50, 51] ++ [110]) =
      .big (decDigitsToNat [49, 50, 51]) ∧
    decodeKeyBase64Revive [49, 50, 51] = .str [49, 50, 51] :=
  keyDecoders_value_forms [49, 50, 51] (by decide) (by decide)

end RSAImpl
